import Mathlib

/-!
Verification of the `.mo` catalog reader (`src/poc/mo_reader.cpp`, `src/poc/mo_reader.h`).

Shallow embedding of `MoReader`:

* the input buffer `(data, size)` is a `List UInt8` (`size = data.length`);
* `std::string` is a `List UInt8`;
* `std::unordered_map<std::string, std::string>` is a key-unique association list
  (`find`, `operator[] =`, `clear`, `size`);
* `uint32_t` values are `Nat` below `2 ^ 32`, with explicit `% 2 ^ 32` at every
  32-bit operation of the source that can overflow (`i * 8`, `oOff + oLen`, `tOff + tLen`, `<<`);
* pointer arithmetic (`data + off`) and `size_t` comparisons are exact (64-bit host);
* `std::memcpy(&v, p, 4)` is taken on a little-endian host;
* a read outside `[0, size)` is undefined behaviour in C++: the embedding returns `none` for it;
* `loadFromFile` reads the file into a buffer and calls `load` on it; only `load` is embedded.
-/

namespace MoReaderModel

/-- A byte buffer / `std::string` contents. -/
abbrev Bytes := List UInt8

/-- The `std::unordered_map<std::string, std::string>` of the reader, as an association list. -/
abbrev TransMap := List (Bytes × Bytes)

/-- `static constexpr uint32_t MO_MAGIC_LE = 0x950412de;` -/
def MO_MAGIC_LE : Nat := 0x950412de

/-- `static constexpr uint32_t MO_MAGIC_BE = 0xde120495;` -/
def MO_MAGIC_BE : Nat := 0xde120495

/-- `const std::string MoReader::_empty;` -/
def _empty : Bytes := []

/-- `_translations.find(key)`: `none` is `end()`, `some v` is `it->second`. -/
def mapFind : TransMap → Bytes → Option Bytes
  | [], _ => none
  | (k, v) :: rest, key => if k = key then some v else mapFind rest key

/-- `_translations[key] = value`: overwrite the entry of `key` if there is one, else add it. -/
def mapAssign : TransMap → Bytes → Bytes → TransMap
  | [], key, value => [(key, value)]
  | (k, v) :: rest, key, value =>
    if k = key then (k, value) :: rest else (k, v) :: mapAssign rest key value

/-- The data members of `class MoReader`. -/
structure MoReader where
  _needSwap : Bool
  _translations : TransMap
  deriving DecidableEq, Repr

/-- A default-constructed reader: `_needSwap = false`, empty map. -/
def MoReader.fresh : MoReader := ⟨false, []⟩

/-- `size_t size() const { return _translations.size(); }` -/
def MoReader.size (r : MoReader) : Nat := r._translations.length

/-- `std::memcpy(&v, p, 4)` with `p = data + off`, on a little-endian host;
`none` when one of the four bytes lies outside the buffer. -/
def memcpy32 (data : Bytes) (off : Nat) : Option Nat :=
  match data[off]?, data[off + 1]?, data[off + 2]?, data[off + 3]? with
  | some b0, some b1, some b2, some b3 =>
    some (b0.toNat + 2 ^ 8 * b1.toNat + 2 ^ 16 * b2.toNat + 2 ^ 24 * b3.toNat)
  | _, _, _, _ => none

/-- The byte swap of `read32`:
`((v >> 24) & 0xFF) | ((v >> 8) & 0xFF00) | ((v << 8) & 0xFF0000) | ((v << 24) & 0xFF000000)`. -/
def bswap32 (v : Nat) : Nat :=
  ((v >>> 24) &&& 0xFF) ||| ((v >>> 8) &&& 0xFF00) |||
    (((v <<< 8) % 2 ^ 32) &&& 0xFF0000) ||| (((v <<< 24) % 2 ^ 32) &&& 0xFF000000)

/-- `uint32_t MoReader::read32(const uint8_t *p) const` with `p = data + off`. -/
def read32 (needSwap : Bool) (data : Bytes) (off : Nat) : Option Nat :=
  match memcpy32 data off with
  | none => none
  | some v => some (if needSwap then bswap32 v else v)

/-- `std::string s(reinterpret_cast<const char *>(data + off), len)`: copies `len` bytes
starting at `data + off`; `none` when the run leaves the buffer. -/
def mkString (data : Bytes) (off len : Nat) : Option Bytes :=
  if off + len ≤ data.length then some ((data.drop off).take len) else none

/-- The `for (uint32_t i = 0; i < nstrings; ++i)` loop of `load`, with `remaining = nstrings - i`
iterations left. Returns the value `load` returns and the map at that point. -/
def loadLoop (needSwap : Bool) (data : Bytes) (origTableOff transTableOff : Nat) :
    Nat → Nat → TransMap → Option (Bool × TransMap)
  | 0, _, m => some (true, m)
  | remaining + 1, i, m =>
    match read32 needSwap data (origTableOff + i * 8 % 2 ^ 32),
          read32 needSwap data (origTableOff + i * 8 % 2 ^ 32 + 4),
          read32 needSwap data (transTableOff + i * 8 % 2 ^ 32),
          read32 needSwap data (transTableOff + i * 8 % 2 ^ 32 + 4) with
    | some oLen, some oOff, some tLen, some tOff =>
      if (oOff + oLen) % 2 ^ 32 ≥ data.length ∨ (tOff + tLen) % 2 ^ 32 ≥ data.length then
        some (false, m)
      else
        match mkString data oOff oLen, mkString data tOff tLen with
        | some orig, some translation =>
          loadLoop needSwap data origTableOff transTableOff remaining (i + 1)
            (if orig ≠ [] then mapAssign m orig translation else m)
        | _, _ => none
    | _, _, _, _ => none

/-- The part of `load` after the magic has been matched and `_needSwap` stored: the revision
check, the reads of `nstrings`, `origTableOff`, `transTableOff`, `_translations.clear()` (the
loop starts from the empty map; `reserve` does not change the contents) and the loop. -/
def loadBody (needSwap : Bool) (r : MoReader) (data : Bytes) : Option (Bool × MoReader) :=
  match read32 needSwap data 4 with
  | none => none
  | some revision =>
    if revision >>> 16 > 1 then some (false, ⟨needSwap, r._translations⟩)
    else
      match read32 needSwap data 8, read32 needSwap data 12, read32 needSwap data 16 with
      | some nstrings, some origTableOff, some transTableOff =>
        match loadLoop needSwap data origTableOff transTableOff nstrings 0 [] with
        | some (ret, m) => some (ret, ⟨needSwap, m⟩)
        | none => none
      | _, _, _ => none

/-- `bool MoReader::load(const uint8_t *data, size_t size)`: the returned flag and the reader
afterwards; `none` when the call reads outside the buffer. -/
def load (r : MoReader) (data : Bytes) : Option (Bool × MoReader) :=
  if data.length < 28 then some (false, r)
  else
    match memcpy32 data 0 with
    | none => none
    | some magic =>
      if magic = MO_MAGIC_LE then loadBody false r data
      else if magic = MO_MAGIC_BE then loadBody true r data
      else some (false, r)

/-- `const std::string &MoReader::getTranslation(const std::string &msgid) const` -/
def getTranslation (r : MoReader) (msgid : Bytes) : Bytes :=
  match mapFind r._translations msgid with
  | some v => v
  | none => _empty

/-- `const std::string &MoReader::getTranslation(const std::string &msgid,
const std::string &context) const` -/
def getTranslationCtx (r : MoReader) (msgid context : Bytes) : Bytes :=
  match mapFind r._translations (context ++ [0x04] ++ msgid) with
  | some v => v
  | none => getTranslation r msgid

/-! ## The catalog format as the specification words it (§3, §4.1, §6) -/

/-- The little-endian reading of the four bytes at `off`. -/
def le32 (data : Bytes) (off : Nat) : Option Nat :=
  match data[off]?, data[off + 1]?, data[off + 2]?, data[off + 3]? with
  | some b0, some b1, some b2, some b3 =>
    some (b0.toNat + 2 ^ 8 * b1.toNat + 2 ^ 16 * b2.toNat + 2 ^ 24 * b3.toNat)
  | _, _, _, _ => none

/-- The big-endian reading of the four bytes at `off`. -/
def be32 (data : Bytes) (off : Nat) : Option Nat :=
  match data[off]?, data[off + 1]?, data[off + 2]?, data[off + 3]? with
  | some b0, some b1, some b2, some b3 =>
    some (2 ^ 24 * b0.toNat + 2 ^ 16 * b1.toNat + 2 ^ 8 * b2.toNat + b3.toNat)
  | _, _, _, _ => none

/-- The buffer starts with the magic in little-endian order, `DE 12 04 95`. -/
def isLittleEndian (data : Bytes) : Bool := data.take 4 == [0xde, 0x12, 0x04, 0x95]

/-- The buffer starts with the magic in big-endian order, `95 04 12 DE`. -/
def isBigEndian (data : Bytes) : Bool := data.take 4 == [0x95, 0x04, 0x12, 0xde]

/-- A 4-byte integer of the catalog, in the byte order its magic selects. -/
def word32 (data : Bytes) (off : Nat) : Option Nat :=
  if isBigEndian data then be32 data off else le32 data off

/-- Header field N (offset 0x08): the number of string pairs. -/
def numStrings (data : Bytes) : Option Nat := word32 data 8

/-- Header field O (offset 0x0C): the offset of the original-string descriptor table. -/
def origTable (data : Bytes) : Option Nat := word32 data 12

/-- Header field T (offset 0x10): the offset of the translation-string descriptor table. -/
def transTable (data : Bytes) : Option Nat := word32 data 16

/-- The `(length, offset)` descriptor number `i` of the table at `table`, read at `table + i * 8`. -/
def descAt (data : Bytes) (table i : Nat) : Option (Nat × Nat) :=
  match word32 data (table + i * 8), word32 data (table + i * 8 + 4) with
  | some len, some off => some (len, off)
  | _, _ => none

/-- Original descriptor `i`: `(length, offset)` at `O + i * 8`. -/
def origDesc (data : Bytes) (i : Nat) : Option (Nat × Nat) :=
  match origTable data with
  | some o => descAt data o i
  | none => none

/-- Translation descriptor `i`: `(length, offset)` at `T + i * 8`. -/
def transDesc (data : Bytes) (i : Nat) : Option (Nat × Nat) :=
  match transTable data with
  | some t => descAt data t i
  | none => none

/-- The byte run `[off, off + len)` of the buffer; `none` when it is not wholly inside. -/
def byteRun (data : Bytes) (off len : Nat) : Option Bytes :=
  if off + len ≤ data.length then some ((data.drop off).take len) else none

/-- The original string number `i`: the byte run `[oOffset, oOffset + oLength)`. -/
def origStr (data : Bytes) (i : Nat) : Option Bytes :=
  match origDesc data i with
  | some (len, off) => byteRun data off len
  | none => none

/-- The translation string number `i`: the byte run `[tOffset, tOffset + tLength)`. -/
def transStr (data : Bytes) (i : Nat) : Option Bytes :=
  match transDesc data i with
  | some (len, off) => byteRun data off len
  | none => none

/-- The translation of the last index `i < n` whose original string is non-empty and equals `k`;
the empty string when there is no such index. -/
def lastTranslation (data : Bytes) (n : Nat) (k : Bytes) : Bytes :=
  match (List.range n).reverse.find? (fun i => decide (k ≠ [] ∧ origStr data i = some k)) with
  | some i => (transStr data i).getD []
  | none => []

/-- The header checks of `load` (§4.1): at least 28 bytes, the magic in one of the two byte
orders, and a major revision (high 16 bits of the revision field) of at most 1. -/
def headerOk (data : Bytes) : Bool :=
  decide (28 ≤ data.length) && (isLittleEndian data || isBigEndian data) &&
    (match word32 data 4 with
     | some revision => decide (revision / 2 ^ 16 ≤ 1)
     | none => false)

/-- Two byte ranges `[a, a + la)` and `[b, b + lb)` have no byte in common. -/
def disjointRanges (a la b lb : Nat) : Bool :=
  decide (la = 0 ∨ lb = 0 ∨ a + la ≤ b ∨ b + lb ≤ a)

/-- The byte range `[off, off + len)` of a referenced string meets neither the 28-byte header
nor one of the two descriptor tables (`n` entries of 8 bytes at `o` and at `t`). -/
def stringClear (n o t len off : Nat) : Bool :=
  disjointRanges off len 0 28 && disjointRanges off len o (n * 8) &&
    disjointRanges off len t (n * 8)

/-- The header and the two descriptor tables overlap neither each other nor the bytes of any
string that a descriptor with index below N references. -/
def nonOverlapping (data : Bytes) : Bool :=
  match numStrings data, origTable data, transTable data with
  | some n, some o, some t =>
    disjointRanges 0 28 o (n * 8) && disjointRanges 0 28 t (n * 8) &&
      disjointRanges o (n * 8) t (n * 8) &&
      (List.range n).all fun i =>
        (match origDesc data i with
         | some (len, off) => stringClear n o t len off
         | none => true) &&
        (match transDesc data i with
         | some (len, off) => stringClear n o t len off
         | none => true)
  | _, _, _ => false

/-- The position of the byte that byte-reversal of the 4-byte words starting at `base` moves
to position `j`. -/
def mirror (base j : Nat) : Nat := base + 4 * ((j - base) / 4) + (3 - (j - base) % 4)

/-- The position in the little-endian catalog of the byte that stands at position `j` of its
byte-swapped counterpart: positions inside the five header fields (the first 20 bytes) and
inside the two descriptor tables (`n` entries of 8 bytes at `o` and at `t`) are mirrored within
their 4-byte word, every other position is unchanged. -/
def swapSource (n o t j : Nat) : Nat :=
  if j < 20 then mirror 0 j
  else if o ≤ j ∧ j < o + n * 8 then mirror o j
  else if t ≤ j ∧ j < t + n * 8 then mirror t j
  else j

/-- The byte-swapped counterpart of a little-endian catalog: each of the 4-byte fields magic,
revision, N, O, T and every 4-byte word of both descriptor tables is byte-reversed; every other
byte (in particular every string byte) is unchanged. -/
def byteSwapped (data : Bytes) : Bytes :=
  match le32 data 8, le32 data 12, le32 data 16 with
  | some n, some o, some t =>
    (List.range data.length).map fun j => data.getD (swapSource n o t j) 0
  | _, _, _ => data

/-! ## The interface of the reader as a transition system -/

/-- A call of one of the public member functions. -/
inductive Call where
  | load (data : Bytes)
  | getTranslation (msgid : Bytes)
  | getTranslationCtx (msgid context : Bytes)
  | size

/-- The value a call returns. -/
inductive Result where
  | flag (b : Bool)
  | text (s : Bytes)
  | count (n : Nat)
  deriving DecidableEq, Repr

/-- One call on a reader: the returned value and the reader afterwards. The three query
functions are `const` member functions: they return the reader they were called on. -/
def step (r : MoReader) : Call → Option (Result × MoReader)
  | Call.load data =>
    match load r data with
    | some (b, r2) => some (Result.flag b, r2)
    | none => none
  | Call.getTranslation msgid => some (Result.text (getTranslation r msgid), r)
  | Call.getTranslationCtx msgid context =>
    some (Result.text (getTranslationCtx r msgid context), r)
  | Call.size => some (Result.count r.size, r)

/-! ## Concrete catalogs -/

/-- A little-endian catalog of 110 bytes with three pairs: the metadata entry (empty msgid),
`hello` → `salut` and `menu\x04hello` → `bonjour`. Tables at 28 and 52, strings from 76. -/
def demoBuf : Bytes :=
  [0xde, 0x12, 0x04, 0x95, 0, 0, 0, 0, 3, 0, 0, 0, 28, 0, 0, 0, 52, 0, 0, 0,
    0, 0, 0, 0, 0, 0, 0, 0,
    0, 0, 0, 0, 76, 0, 0, 0, 5, 0, 0, 0, 77, 0, 0, 0, 10, 0, 0, 0, 83, 0, 0, 0,
    1, 0, 0, 0, 94, 0, 0, 0, 5, 0, 0, 0, 96, 0, 0, 0, 7, 0, 0, 0, 102, 0, 0, 0,
    0,
    0x68, 0x65, 0x6c, 0x6c, 0x6f, 0,
    0x6d, 0x65, 0x6e, 0x75, 0x04, 0x68, 0x65, 0x6c, 0x6c, 0x6f, 0,
    0x58, 0,
    0x73, 0x61, 0x6c, 0x75, 0x74, 0,
    0x62, 0x6f, 0x6e, 0x6a, 0x6f, 0x75, 0x72, 0]

/-- The msgid `hello`. -/
def hello : Bytes := [0x68, 0x65, 0x6c, 0x6c, 0x6f]

/-- The context `menu`. -/
def menu : Bytes := [0x6d, 0x65, 0x6e, 0x75]

/-- The translation `salut`. -/
def salut : Bytes := [0x73, 0x61, 0x6c, 0x75, 0x74]

/-- The translation `bonjour`. -/
def bonjour : Bytes := [0x62, 0x6f, 0x6e, 0x6a, 0x6f, 0x75, 0x72]

/-- The reader after loading `demoBuf`. -/
def demoReader : MoReader := ⟨false, [(hello, salut), (menu ++ [0x04] ++ hello, bonjour)]⟩

/-- A little-endian catalog of 48 bytes with one pair whose original descriptor is
`(length 2, offset 0xFFFFFFFF)`: the 32-bit sum `oOff + oLen` wraps to 1. -/
def overflowBuf : Bytes :=
  [0xde, 0x12, 0x04, 0x95, 0, 0, 0, 0, 1, 0, 0, 0, 28, 0, 0, 0, 36, 0, 0, 0,
    0, 0, 0, 0, 0, 0, 0, 0,
    2, 0, 0, 0, 0xff, 0xff, 0xff, 0xff,
    0, 0, 0, 0, 44, 0, 0, 0,
    0, 0, 0, 0]

/-- A little-endian catalog of 48 bytes with one pair whose original descriptor
`(length 1, offset 47)` ends exactly at the end of the buffer. -/
def rejectBuf : Bytes :=
  [0xde, 0x12, 0x04, 0x95, 0, 0, 0, 0, 1, 0, 0, 0, 28, 0, 0, 0, 36, 0, 0, 0,
    0, 0, 0, 0, 0, 0, 0, 0,
    1, 0, 0, 0, 47, 0, 0, 0,
    0, 0, 0, 0, 44, 0, 0, 0,
    0, 0, 0, 0x61]

/-- A little-endian catalog of 64 bytes with two pairs: `a` → `b`, and a second pair whose
original descriptor `(length 1, offset 63)` ends exactly at the end of the buffer. -/
def partialBuf : Bytes :=
  [0xde, 0x12, 0x04, 0x95, 0, 0, 0, 0, 2, 0, 0, 0, 28, 0, 0, 0, 44, 0, 0, 0,
    0, 0, 0, 0, 0, 0, 0, 0,
    1, 0, 0, 0, 60, 0, 0, 0, 1, 0, 0, 0, 63, 0, 0, 0,
    1, 0, 0, 0, 62, 0, 0, 0, 1, 0, 0, 0, 62, 0, 0, 0,
    0x61, 0, 0x62, 0x63]

/-! ## Auxiliary definitions used in the proofs -/

/-- What one iteration of the loop of `load` does with index `i`. -/
inductive Step where
  | fault
  | reject
  | pair (orig translation : Bytes)
  deriving DecidableEq, Repr

/-- The outcome of iteration `i` of the loop of `load`: the four reads, the bounds check and
the two string copies. -/
def stepAt (needSwap : Bool) (data : Bytes) (origTableOff transTableOff i : Nat) : Step :=
  match read32 needSwap data (origTableOff + i * 8 % 2 ^ 32),
        read32 needSwap data (origTableOff + i * 8 % 2 ^ 32 + 4),
        read32 needSwap data (transTableOff + i * 8 % 2 ^ 32),
        read32 needSwap data (transTableOff + i * 8 % 2 ^ 32 + 4) with
  | some oLen, some oOff, some tLen, some tOff =>
    if (oOff + oLen) % 2 ^ 32 ≥ data.length ∨ (tOff + tLen) % 2 ^ 32 ≥ data.length then
      Step.reject
    else
      match mkString data oOff oLen, mkString data tOff tLen with
      | some orig, some translation => Step.pair orig translation
      | _, _ => Step.fault
  | _, _, _, _ => Step.fault

/-- The pair taken by iteration `i` (a pair of empty strings when the iteration takes none). -/
def pairAt (needSwap : Bool) (data : Bytes) (origTableOff transTableOff i : Nat) :
    Bytes × Bytes :=
  match stepAt needSwap data origTableOff transTableOff i with
  | Step.pair o t => (o, t)
  | _ => ([], [])

/-- The map update of one iteration: `if (!orig.empty()) _translations[orig] = trans`. -/
def insertPair (m : TransMap) (p : Bytes × Bytes) : TransMap :=
  if p.1 ≠ [] then mapAssign m p.1 p.2 else m

/-- The header of `wrapBufOf`: little-endian magic, revision 0, `N = 2 ^ 29 + 1`, `O = T = 28`. -/
def wrapHeader : Bytes :=
  [0xde, 0x12, 0x04, 0x95, 0, 0, 0, 0, 0x01, 0, 0, 0x20, 28, 0, 0, 0, 28, 0, 0, 0,
    0, 0, 0, 0, 0, 0, 0, 0]

/-- The last descriptor of `wrapBufOf`: `(length 1, offset 0)`. -/
def wrapTail : Bytes := [1, 0, 0, 0, 0, 0, 0, 0]

/-- A little-endian catalog of `n + 36` bytes with `N = 2 ^ 29 + 1` string pairs whose two
descriptor tables both start at offset 28: `n` zero bytes (all-zero descriptors: empty strings
at offset 0) followed by the descriptor `(length 1, offset 0)`. -/
def wrapBufOf (n : Nat) : Bytes :=
  wrapHeader ++ List.replicate n 0 ++ wrapTail

/-! ## Buffers for the header checks -/

/-- A little-endian catalog of 28 bytes (the header alone) that announces one string pair with
both descriptor tables at offset 28, the end of the buffer. -/
def tableOobBuf : Bytes :=
  [0xde, 0x12, 0x04, 0x95, 0, 0, 0, 0, 1, 0, 0, 0, 28, 0, 0, 0, 28, 0, 0, 0,
    0, 0, 0, 0, 0, 0, 0, 0]

/-- A little-endian header of 28 bytes with revision `0x00020000` (major 2, minor 0) and no
string pairs. -/
def major2Buf : Bytes :=
  [0xde, 0x12, 0x04, 0x95, 0, 0, 2, 0, 0, 0, 0, 0, 28, 0, 0, 0, 28, 0, 0, 0,
    0, 0, 0, 0, 0, 0, 0, 0]

/-- A big-endian header of 28 bytes with revision `0x00020001` (major 2, minor 1) and no string
pairs. -/
def major2BufBE : Bytes :=
  [0x95, 0x04, 0x12, 0xde, 0, 2, 0, 1, 0, 0, 0, 0, 0, 0, 0, 28, 0, 0, 0, 28,
    0, 0, 0, 0, 0, 0, 0, 0]

/-- A buffer of 28 zero bytes. -/
def zeroBuf : Bytes := List.replicate 28 0

/-! ## Buffers that differ in the minor version -/

/-- Two buffers differ only in the low 16 bits (minor version) of the revision field: they have
the same length, the same bytes before offset 4 and from offset 8 on, and revision fields
(read in the byte order of the magic) with the same high 16 bits. -/
def sameUpToMinor (d1 d2 : Bytes) : Bool :=
  decide (d1.length = d2.length) && (d1.take 4 == d2.take 4) && (d1.drop 8 == d2.drop 8) &&
    ((word32 d1 4).map (fun rev => rev / 2 ^ 16) == (word32 d2 4).map (fun rev => rev / 2 ^ 16))

/-- Neither descriptor table nor the bytes of any string that a descriptor with index below N
references overlaps the revision field, the bytes `[4, 8)`. -/
def revisionClear (data : Bytes) : Bool :=
  match numStrings data, origTable data, transTable data with
  | some n, some o, some t =>
    disjointRanges o (n * 8) 4 4 && disjointRanges t (n * 8) 4 4 &&
      (List.range n).all fun i =>
        (match origDesc data i with
         | some (len, off) => disjointRanges off len 4 4
         | none => true) &&
        (match transDesc data i with
         | some (len, off) => disjointRanges off len 4 4
         | none => true)
  | _, _, _ => true

/-- The catalog `demoBuf` with minor version `0x0107` instead of 0. -/
def demoMinorBuf : Bytes := demoBuf.take 4 ++ [0x07, 0x01] ++ demoBuf.drop 6

/-! ## Counting the original strings -/

/-- The non-empty original strings of the descriptors with index below `n`, in index order. -/
def nonEmptyOriginals (data : Bytes) (n : Nat) : List Bytes :=
  ((List.range n).filterMap (origStr data)).filter (fun s => decide (s ≠ []))

/-- The number of distinct non-empty original strings among the descriptors with index below
`n`. -/
def distinctOriginals (data : Bytes) (n : Nat) : Nat :=
  (nonEmptyOriginals data n).dedup.length

/-! ## The reference layout of a catalog -/

/-- The four bytes of a 32-bit word in little-endian order (least significant byte first). -/
def encode32 (v : Nat) : Bytes :=
  [UInt8.ofNat (v % 256), UInt8.ofNat (v / 2 ^ 8 % 256), UInt8.ofNat (v / 2 ^ 16 % 256),
    UInt8.ofNat (v / 2 ^ 24 % 256)]

/-- The strings `ss`, each followed by its terminating NUL byte, one after the other. -/
def strArea (ss : List Bytes) : Bytes := (ss.map fun s => s ++ [0]).flatten

/-- The descriptor table of the strings `ss` laid out by `strArea` from offset `start`:
entry `i` is the length of string `i` followed by its offset, 4 bytes each. -/
def descTable (ss : List Bytes) (start : Nat) : Bytes :=
  ((List.range ss.length).map fun i =>
    encode32 (ss.getD i []).length ++ encode32 (start + (strArea (ss.take i)).length)).flatten

/-- The 28-byte header of the reference layout for `n` string pairs: little-endian magic,
revision 0, N = `n`, O = 28, T = `28 + 8 * n`, no hash table (S = 0, H = `28 + 16 * n`). -/
def moHeader (n : Nat) : Bytes :=
  [0xde, 0x12, 0x04, 0x95] ++ encode32 0 ++ encode32 n ++ encode32 28 ++ encode32 (28 + 8 * n)
    ++ encode32 0 ++ encode32 (28 + 16 * n)

/-- The reference little-endian `.mo` layout of a list of (original, translation) pairs, after
the format table of §6: the header, the table of original descriptors, the table of translation
descriptors, the NUL-terminated originals, the NUL-terminated translations. The repository has
no generator; this is the layout the round-trip property is stated for, and `load` is run on
it. -/
def encodeMo (pairs : List (Bytes × Bytes)) : Bytes :=
  moHeader pairs.length ++ descTable (pairs.map Prod.fst) (28 + 16 * pairs.length)
    ++ descTable (pairs.map Prod.snd)
        (28 + 16 * pairs.length + (strArea (pairs.map Prod.fst)).length)
    ++ strArea (pairs.map Prod.fst) ++ strArea (pairs.map Prod.snd)

/-- The pairs of the catalog `demoBuf` without the metadata entry. -/
def demoPairs : List (Bytes × Bytes) := [(hello, salut), (menu ++ [0x04] ++ hello, bonjour)]

/-! ## Reachable reader states -/

/-- The reader states reachable from a freshly constructed reader by calls of `load`
(states after a call with undefined behaviour are not states). -/
inductive Reachable : MoReader → Prop where
  | fresh : Reachable MoReader.fresh
  | load {r r2 : MoReader} {ret : Bool} (data : Bytes) :
      Reachable r → load r data = some (ret, r2) → Reachable r2

end MoReaderModel

namespace MoReaderModel

/-! ## The association list -/

theorem mapFind_mapAssign_self (m : TransMap) (k v : Bytes) :
    mapFind (mapAssign m k v) k = some v := by
  induction m with
  | nil => simp [mapAssign, mapFind]
  | cons e rest ih =>
    obtain ⟨k1, v1⟩ := e
    by_cases h : k1 = k
    · simp [mapAssign, mapFind, h]
    · simp [mapAssign, mapFind, h, ih]

theorem mapFind_mapAssign_ne (m : TransMap) (k v k2 : Bytes) (hne : k ≠ k2) :
    mapFind (mapAssign m k v) k2 = mapFind m k2 := by
  induction m with
  | nil => simp [mapAssign, mapFind, hne]
  | cons e rest ih =>
    obtain ⟨k1, v1⟩ := e
    by_cases h : k1 = k
    · subst h
      simp [mapAssign, mapFind, hne]
    · by_cases h2 : k1 = k2
      · subst h2
        simp [mapAssign, mapFind, h]
      · simp [mapAssign, mapFind, h, h2, ih]

theorem mem_mapAssign (m : TransMap) (k v : Bytes) (e : Bytes × Bytes)
    (h : e ∈ mapAssign m k v) : e = (k, v) ∨ e ∈ m := by
  induction m with
  | nil =>
    simp only [mapAssign, List.mem_singleton] at h
    exact Or.inl h
  | cons e1 rest ih =>
    obtain ⟨k1, v1⟩ := e1
    by_cases h1 : k1 = k
    · subst h1
      simp only [mapAssign, if_true, List.mem_cons] at h
      rcases h with h | h
      · exact Or.inl h
      · exact Or.inr (List.mem_cons_of_mem _ h)
    · simp only [mapAssign, h1, if_false, List.mem_cons] at h
      rcases h with h | h
      · subst h
        exact Or.inr (List.mem_cons_self _ _)
      · rcases ih h with h2 | h2
        · exact Or.inl h2
        · exact Or.inr (List.mem_cons_of_mem _ h2)

theorem mapFind_eq_none_iff (m : TransMap) (k : Bytes) :
    mapFind m k = none ↔ ∀ v, (k, v) ∉ m := by
  induction m with
  | nil => simp [mapFind]
  | cons e rest ih =>
    obtain ⟨k1, v1⟩ := e
    by_cases h : k1 = k
    · subst h
      simp only [mapFind, if_true]
      constructor
      · intro h2
        cases h2
      · intro h2
        exact absurd (List.mem_cons_self _ _) (h2 v1)
    · simp only [mapFind, h, if_false, ih, List.mem_cons, Prod.mk.injEq, not_or, not_and]
      constructor
      · intro h2 v
        exact ⟨fun h3 => absurd h3.symm h, h2 v⟩
      · intro h2 v
        exact (h2 v).2

/-! ## The loop of `load` -/

theorem loadLoop_succ (sw : Bool) (data : Bytes) (O T n i : Nat) (m : TransMap) :
    loadLoop sw data O T (n + 1) i m =
      match stepAt sw data O T i with
      | Step.fault => none
      | Step.reject => some (false, m)
      | Step.pair o t => loadLoop sw data O T n (i + 1) (insertPair m (o, t)) := by
  simp only [loadLoop, stepAt, insertPair]
  split
  · split
    · rfl
    · split <;> simp_all
  · simp_all

theorem pairAt_of_stepAt {sw : Bool} {data : Bytes} {O T i : Nat} {o t : Bytes}
    (h : stepAt sw data O T i = Step.pair o t) : pairAt sw data O T i = (o, t) := by
  simp [pairAt, h]

theorem loadLoop_true_iff (sw : Bool) (data : Bytes) (O T n i : Nat) (m m2 : TransMap) :
    loadLoop sw data O T n i m = some (true, m2) ↔
      (∀ j, i ≤ j → j < i + n → ∃ o t, stepAt sw data O T j = Step.pair o t) ∧
      m2 = ((List.range' i n).map (pairAt sw data O T)).foldl insertPair m := by
  induction n generalizing i m with
  | zero =>
    simp only [loadLoop, Option.some.injEq, Prod.mk.injEq, true_and, List.range'_zero,
      List.map_nil, List.foldl_nil]
    constructor
    · intro h
      exact ⟨fun j h1 h2 => by omega, h.symm⟩
    · intro h
      exact h.2.symm
  | succ n ih =>
    rw [loadLoop_succ]
    cases hs : stepAt sw data O T i with
    | fault =>
      simp only [reduceCtorEq, false_iff, not_and]
      intro h
      obtain ⟨o, t, h2⟩ := h i (le_refl _) (by omega)
      rw [hs] at h2
      cases h2
    | reject =>
      simp only [Option.some.injEq, Prod.mk.injEq, Bool.false_eq_true, false_and, false_iff,
        not_and]
      intro h
      obtain ⟨o, t, h2⟩ := h i (le_refl _) (by omega)
      rw [hs] at h2
      cases h2
    | pair o t =>
      simp only [ih, List.range'_succ, List.map_cons, List.foldl_cons, pairAt_of_stepAt hs]
      constructor
      · rintro ⟨h1, h2⟩
        refine ⟨fun j hj1 hj2 => ?_, h2⟩
        by_cases hj : j = i
        · subst hj
          exact ⟨o, t, hs⟩
        · exact h1 j (by omega) (by omega)
      · rintro ⟨h1, h2⟩
        exact ⟨fun j hj1 hj2 => h1 j (by omega) (by omega), h2⟩

theorem loadLoop_false_iff (sw : Bool) (data : Bytes) (O T n i : Nat) (m m2 : TransMap) :
    loadLoop sw data O T n i m = some (false, m2) ↔
      ∃ c, c < n ∧ stepAt sw data O T (i + c) = Step.reject ∧
        (∀ j, i ≤ j → j < i + c → ∃ o t, stepAt sw data O T j = Step.pair o t) ∧
        m2 = ((List.range' i c).map (pairAt sw data O T)).foldl insertPair m := by
  induction n generalizing i m with
  | zero => simp [loadLoop]
  | succ n ih =>
    rw [loadLoop_succ]
    cases hs : stepAt sw data O T i with
    | fault =>
      simp only [reduceCtorEq, false_iff, not_exists, not_and]
      intro c hc h1 h2
      cases c with
      | zero => rw [Nat.add_zero, hs] at h1; cases h1
      | succ c =>
        obtain ⟨o, t, h3⟩ := h2 i (le_refl _) (by omega)
        rw [hs] at h3
        cases h3
    | reject =>
      simp only [Option.some.injEq, Prod.mk.injEq, true_and]
      constructor
      · intro h
        exact ⟨0, by omega, by simpa using hs, fun j h1 h2 => by omega, by simp [h]⟩
      · rintro ⟨c, hc, h1, h2, h3⟩
        cases c with
        | zero => simpa using h3.symm
        | succ c =>
          obtain ⟨o, t, h4⟩ := h2 i (le_refl _) (by omega)
          rw [hs] at h4
          cases h4
    | pair o t =>
      simp only [ih]
      constructor
      · rintro ⟨c, hc, h1, h2, h3⟩
        refine ⟨c + 1, by omega, ?_, ?_, ?_⟩
        · rw [← h1]
          congr 1
          omega
        · intro j hj1 hj2
          by_cases hj : j = i
          · subst hj
            exact ⟨o, t, hs⟩
          · exact h2 j (by omega) (by omega)
        · simp only [List.range'_succ, List.map_cons, List.foldl_cons, pairAt_of_stepAt hs]
          exact h3
      · rintro ⟨c, hc, h1, h2, h3⟩
        cases c with
        | zero => rw [Nat.add_zero, hs] at h1; cases h1
        | succ c =>
          refine ⟨c, by omega, ?_, ?_, ?_⟩
          · rw [← h1]
            congr 1
            omega
          · exact fun j hj1 hj2 => h2 j (by omega) (by omega)
          · simpa only [List.range'_succ, List.map_cons, List.foldl_cons,
              pairAt_of_stepAt hs] using h3

theorem mapFind_foldl_insertPair (ps : List (Bytes × Bytes)) (m : TransMap) (k : Bytes) :
    mapFind (ps.foldl insertPair m) k =
      match ps.reverse.find? (fun p => decide (k ≠ [] ∧ p.1 = k)) with
      | some p => some p.2
      | none => mapFind m k := by
  induction ps using List.reverseRecOn with
  | nil => simp
  | append_singleton ps p ih =>
    obtain ⟨o, t⟩ := p
    rw [List.foldl_append, List.reverse_append]
    simp only [List.foldl_cons, List.foldl_nil, List.reverse_cons, List.reverse_nil,
      List.nil_append, List.singleton_append]
    by_cases ho : o = []
    · rw [List.find?_cons_of_neg]
      · simp only [insertPair, ho, ne_eq, not_true_eq_false, if_false]
        exact ih
      · simp only [decide_eq_true_eq, not_and]
        intro h1 h2
        exact h1 (h2 ▸ ho)
    · by_cases hk : o = k
      · subst hk
        rw [List.find?_cons_of_pos]
        · simp only [insertPair, ne_eq, ho, not_false_eq_true, if_true, mapFind_mapAssign_self]
        · simp [ho]
      · rw [List.find?_cons_of_neg]
        · simp only [insertPair, ne_eq, ho, not_false_eq_true, if_true,
            mapFind_mapAssign_ne _ _ _ _ hk]
          exact ih
        · simp [hk]

/-! ## Bytes, words and the magic -/

theorem uint8_eq_of_toNat {a b : UInt8} (h : a.toNat = b.toNat) : a = b :=
  UInt8.eq_of_toBitVec_eq (BitVec.eq_of_toNat_eq h)

theorem uint8_lt (a : UInt8) : a.toNat < 256 := a.toNat_lt_size

theorem and_shl_mask (x m k : Nat) : x &&& (m <<< k) = ((x >>> k) &&& m) <<< k := by
  apply Nat.eq_of_testBit_eq
  intro i
  simp only [Nat.testBit_and, Nat.testBit_shiftLeft, Nat.testBit_shiftRight]
  by_cases h : k ≤ i
  · simp [h]
  · simp [h]

theorem bswap32_bytes (b0 b1 b2 b3 : Nat) (h0 : b0 < 256) (h1 : b1 < 256) (h2 : b2 < 256)
    (h3 : b3 < 256) :
    bswap32 (b0 + 2 ^ 8 * b1 + 2 ^ 16 * b2 + 2 ^ 24 * b3)
      = 2 ^ 24 * b0 + 2 ^ 16 * b1 + 2 ^ 8 * b2 + b3 := by
  unfold bswap32
  have e1 : (0xFF00 : Nat) = 0xFF <<< 8 := by decide
  have e2 : (0xFF0000 : Nat) = 0xFF <<< 16 := by decide
  have e3 : (0xFF000000 : Nat) = 0xFF <<< 24 := by decide
  have e0 : (0xFF : Nat) = 2 ^ 8 - 1 := by decide
  rw [e1, e2, e3, and_shl_mask, and_shl_mask, and_shl_mask, e0]
  simp only [Nat.and_pow_two_sub_one_eq_mod, Nat.shiftRight_eq_div_pow, Nat.shiftLeft_eq]
  have t3 : (b0 + 2 ^ 8 * b1 + 2 ^ 16 * b2 + 2 ^ 24 * b3) / 2 ^ 24 % 2 ^ 8 = b3 := by omega
  have t2 : (b0 + 2 ^ 8 * b1 + 2 ^ 16 * b2 + 2 ^ 24 * b3) / 2 ^ 8 / 2 ^ 8 % 2 ^ 8 = b2 := by
    omega
  have t1 : (b0 + 2 ^ 8 * b1 + 2 ^ 16 * b2 + 2 ^ 24 * b3) * 2 ^ 8 % 2 ^ 32 / 2 ^ 16 % 2 ^ 8
      = b1 := by omega
  have t0 : (b0 + 2 ^ 8 * b1 + 2 ^ 16 * b2 + 2 ^ 24 * b3) * 2 ^ 24 % 2 ^ 32 / 2 ^ 24 % 2 ^ 8
      = b0 := by omega
  rw [t3, t2, t1, t0]
  have s1 : b3 ||| b2 * 2 ^ 8 = 2 ^ 8 * b2 + b3 := by
    rw [Nat.or_comm, Nat.mul_comm, ← Nat.mul_add_lt_is_or (by omega)]
  have s2 : (2 ^ 8 * b2 + b3) ||| b1 * 2 ^ 16 = 2 ^ 16 * b1 + (2 ^ 8 * b2 + b3) := by
    rw [Nat.or_comm, Nat.mul_comm, ← Nat.mul_add_lt_is_or (by omega)]
  have s3 : (2 ^ 16 * b1 + (2 ^ 8 * b2 + b3)) ||| b0 * 2 ^ 24
      = 2 ^ 24 * b0 + (2 ^ 16 * b1 + (2 ^ 8 * b2 + b3)) := by
    rw [Nat.or_comm, Nat.mul_comm, ← Nat.mul_add_lt_is_or (by omega)]
  rw [s1, s2, s3]
  omega

theorem memcpy32_eq_le32 (data : Bytes) (off : Nat) : memcpy32 data off = le32 data off := rfl

theorem read32_false (data : Bytes) (off : Nat) : read32 false data off = le32 data off := by
  unfold read32
  rw [memcpy32_eq_le32]
  cases le32 data off <;> simp

theorem read32_true (data : Bytes) (off : Nat) : read32 true data off = be32 data off := by
  unfold read32 memcpy32 be32
  cases data[off]? <;> cases data[off + 1]? <;> cases data[off + 2]? <;>
    cases data[off + 3]? <;>
    first
    | rfl
    | exact congrArg some
        (bswap32_bytes _ _ _ _ (uint8_lt _) (uint8_lt _) (uint8_lt _) (uint8_lt _))

theorem read32_eq_word32 (data : Bytes) (off : Nat) :
    read32 (isBigEndian data) data off = word32 data off := by
  unfold word32
  cases isBigEndian data
  · simp [read32_false]
  · simp [read32_true]

theorem le32_isSome (data : Bytes) (off : Nat) (h : off + 4 ≤ data.length) :
    ∃ v, le32 data off = some v ∧ v < 2 ^ 32 := by
  unfold le32
  have h0 : off < data.length := by omega
  have h1 : off + 1 < data.length := by omega
  have h2 : off + 2 < data.length := by omega
  have h3 : off + 3 < data.length := by omega
  simp only [List.getElem?_eq_getElem, h0, h1, h2, h3, Option.some.injEq, exists_eq_left']
  have := uint8_lt data[off]
  have := uint8_lt data[off + 1]
  have := uint8_lt data[off + 2]
  have := uint8_lt data[off + 3]
  omega

theorem be32_isSome (data : Bytes) (off : Nat) (h : off + 4 ≤ data.length) :
    ∃ v, be32 data off = some v ∧ v < 2 ^ 32 := by
  unfold be32
  have h0 : off < data.length := by omega
  have h1 : off + 1 < data.length := by omega
  have h2 : off + 2 < data.length := by omega
  have h3 : off + 3 < data.length := by omega
  simp only [List.getElem?_eq_getElem, h0, h1, h2, h3, Option.some.injEq, exists_eq_left']
  have := uint8_lt data[off]
  have := uint8_lt data[off + 1]
  have := uint8_lt data[off + 2]
  have := uint8_lt data[off + 3]
  omega

theorem word32_isSome (data : Bytes) (off : Nat) (h : off + 4 ≤ data.length) :
    ∃ v, word32 data off = some v ∧ v < 2 ^ 32 := by
  unfold word32
  split
  · exact be32_isSome data off h
  · exact le32_isSome data off h

theorem le32_some_bound {data : Bytes} {off v : Nat} (h : le32 data off = some v) :
    off + 4 ≤ data.length ∧ v < 2 ^ 32 := by
  unfold le32 at h
  split at h
  · rename_i b0 b1 b2 b3 h0 h1 h2 h3
    have := (List.getElem?_eq_some_iff.mp h3).1
    have := uint8_lt b0
    have := uint8_lt b1
    have := uint8_lt b2
    have := uint8_lt b3
    simp only [Option.some.injEq] at h
    omega
  · cases h

theorem be32_some_bound {data : Bytes} {off v : Nat} (h : be32 data off = some v) :
    off + 4 ≤ data.length ∧ v < 2 ^ 32 := by
  unfold be32 at h
  split at h
  · rename_i b0 b1 b2 b3 h0 h1 h2 h3
    have := (List.getElem?_eq_some_iff.mp h3).1
    have := uint8_lt b0
    have := uint8_lt b1
    have := uint8_lt b2
    have := uint8_lt b3
    simp only [Option.some.injEq] at h
    omega
  · cases h

theorem word32_some_bound {data : Bytes} {off v : Nat} (h : word32 data off = some v) :
    off + 4 ≤ data.length ∧ v < 2 ^ 32 := by
  unfold word32 at h
  split at h
  · exact be32_some_bound h
  · exact le32_some_bound h

theorem take_four (data : Bytes) (b0 b1 b2 b3 : UInt8)
    (h0 : data[0]? = some b0) (h1 : data[0 + 1]? = some b1) (h2 : data[0 + 2]? = some b2)
    (h3 : data[0 + 3]? = some b3) : data.take 4 = [b0, b1, b2, b3] := by
  rcases data with _ | ⟨a, _ | ⟨b, _ | ⟨c, _ | ⟨d, rest⟩⟩⟩⟩ <;> simp_all

theorem magic_le_iff (data : Bytes) :
    memcpy32 data 0 = some MO_MAGIC_LE ↔ isLittleEndian data = true := by
  unfold memcpy32 isLittleEndian MO_MAGIC_LE
  constructor
  · intro h
    split at h
    · rename_i b0 b1 b2 b3 h0 h1 h2 h3
      rw [take_four data b0 b1 b2 b3 h0 h1 h2 h3]
      simp only [Option.some.injEq] at h
      have := uint8_lt b0
      have := uint8_lt b1
      have := uint8_lt b2
      have := uint8_lt b3
      have e0 : b0 = 0xde := uint8_eq_of_toNat (by show b0.toNat = 0xde; omega)
      have e1 : b1 = 0x12 := uint8_eq_of_toNat (by show b1.toNat = 0x12; omega)
      have e2 : b2 = 0x04 := uint8_eq_of_toNat (by show b2.toNat = 0x04; omega)
      have e3 : b3 = 0x95 := uint8_eq_of_toNat (by show b3.toNat = 0x95; omega)
      subst e0 e1 e2 e3
      rfl
    · cases h
  · intro h
    rcases data with _ | ⟨a, _ | ⟨b, _ | ⟨c, _ | ⟨d, rest⟩⟩⟩⟩ <;> simp at h
    obtain ⟨rfl, rfl, rfl, rfl⟩ := h
    simp
    decide

theorem magic_be_iff (data : Bytes) :
    memcpy32 data 0 = some MO_MAGIC_BE ↔ isBigEndian data = true := by
  unfold memcpy32 isBigEndian MO_MAGIC_BE
  constructor
  · intro h
    split at h
    · rename_i b0 b1 b2 b3 h0 h1 h2 h3
      rw [take_four data b0 b1 b2 b3 h0 h1 h2 h3]
      simp only [Option.some.injEq] at h
      have := uint8_lt b0
      have := uint8_lt b1
      have := uint8_lt b2
      have := uint8_lt b3
      have e0 : b0 = 0x95 := uint8_eq_of_toNat (by show b0.toNat = 0x95; omega)
      have e1 : b1 = 0x04 := uint8_eq_of_toNat (by show b1.toNat = 0x04; omega)
      have e2 : b2 = 0x12 := uint8_eq_of_toNat (by show b2.toNat = 0x12; omega)
      have e3 : b3 = 0xde := uint8_eq_of_toNat (by show b3.toNat = 0xde; omega)
      subst e0 e1 e2 e3
      rfl
    · cases h
  · intro h
    rcases data with _ | ⟨a, _ | ⟨b, _ | ⟨c, _ | ⟨d, rest⟩⟩⟩⟩ <;> simp at h
    obtain ⟨rfl, rfl, rfl, rfl⟩ := h
    simp
    decide

theorem not_le_and_be (data : Bytes) (h : isLittleEndian data = true) :
    isBigEndian data = false := by
  unfold isLittleEndian at h
  unfold isBigEndian
  rw [beq_iff_eq] at h
  rw [h]
  decide

/-! ## `load` and the header checks -/

theorem headerOk_iff (data : Bytes) :
    headerOk data = true ↔
      28 ≤ data.length ∧ (isLittleEndian data = true ∨ isBigEndian data = true) ∧
        ∃ rev, word32 data 4 = some rev ∧ rev / 2 ^ 16 ≤ 1 := by
  unfold headerOk
  cases h : word32 data 4 with
  | none => simp
  | some rev => simp [and_assoc]

theorem header_fields (data : Bytes) (h : 28 ≤ data.length) :
    ∃ N O T, numStrings data = some N ∧ origTable data = some O ∧ transTable data = some T ∧
      N < 2 ^ 32 ∧ O < 2 ^ 32 ∧ T < 2 ^ 32 := by
  obtain ⟨N, hN, hN2⟩ := word32_isSome data 8 (by omega)
  obtain ⟨O, hO, hO2⟩ := word32_isSome data 12 (by omega)
  obtain ⟨T, hT, hT2⟩ := word32_isSome data 16 (by omega)
  exact ⟨N, O, T, hN, hO, hT, hN2, hO2, hT2⟩

theorem loadBody_isBigEndian (r : MoReader) (data : Bytes) (rev N O T : Nat)
    (hrev : word32 data 4 = some rev) (hN : numStrings data = some N)
    (hO : origTable data = some O) (hT : transTable data = some T) :
    loadBody (isBigEndian data) r data =
      if rev / 2 ^ 16 > 1 then some (false, ⟨isBigEndian data, r._translations⟩)
      else
        match loadLoop (isBigEndian data) data O T N 0 [] with
        | some (ret, m) => some (ret, ⟨isBigEndian data, m⟩)
        | none => none := by
  unfold numStrings at hN
  unfold origTable at hO
  unfold transTable at hT
  unfold loadBody
  simp only [read32_eq_word32, hrev, hN, hO, hT, Nat.shiftRight_eq_div_pow]

theorem load_eq_loadBody (r : MoReader) (data : Bytes) (h28 : 28 ≤ data.length)
    (hm : isLittleEndian data = true ∨ isBigEndian data = true) :
    load r data = loadBody (isBigEndian data) r data := by
  unfold load
  have hlt : ¬ data.length < 28 := by omega
  simp only [hlt, if_false]
  obtain ⟨magic, hmagic, -⟩ := le32_isSome data 0 (by omega)
  rw [← memcpy32_eq_le32] at hmagic
  rw [hmagic]
  simp only
  rcases hm with hm | hm
  · have h1 := (magic_le_iff data).mpr hm
    rw [hmagic, Option.some.injEq] at h1
    rw [not_le_and_be data hm]
    simp [h1]
  · have h1 := (magic_be_iff data).mpr hm
    rw [hmagic, Option.some.injEq] at h1
    rw [hm]
    subst h1
    have h2 : ¬ MO_MAGIC_BE = MO_MAGIC_LE := by decide
    simp only [h2, if_false, if_true]

theorem load_of_headerOk (r : MoReader) (data : Bytes) (h : headerOk data = true) (N O T : Nat)
    (hN : numStrings data = some N) (hO : origTable data = some O)
    (hT : transTable data = some T) :
    load r data =
      match loadLoop (isBigEndian data) data O T N 0 [] with
      | some (ret, m) => some (ret, ⟨isBigEndian data, m⟩)
      | none => none := by
  obtain ⟨h28, hm, rev, hrev, hmajor⟩ := (headerOk_iff data).mp h
  rw [load_eq_loadBody r data h28 hm, loadBody_isBigEndian r data rev N O T hrev hN hO hT]
  have : ¬ rev / 2 ^ 16 > 1 := by omega
  simp only [this, if_false]

theorem load_of_not_headerOk (r : MoReader) (data : Bytes) (h : headerOk data = false) :
    ∃ sw, load r data = some (false, ⟨sw, r._translations⟩) := by
  by_cases h28 : 28 ≤ data.length
  · by_cases hm : isLittleEndian data = true ∨ isBigEndian data = true
    · obtain ⟨rev, hrev, -⟩ := word32_isSome data 4 (by omega)
      obtain ⟨N, O, T, hN, hO, hT, -⟩ := header_fields data h28
      refine ⟨isBigEndian data, ?_⟩
      rw [load_eq_loadBody r data h28 hm, loadBody_isBigEndian r data rev N O T hrev hN hO hT]
      have : rev / 2 ^ 16 > 1 := by
        by_contra hc
        have : headerOk data = true :=
          (headerOk_iff data).mpr ⟨h28, hm, rev, hrev, by omega⟩
        rw [h] at this
        cases this
      simp only [this, if_true]
    · refine ⟨r._needSwap, ?_⟩
      unfold load
      have hlt : ¬ data.length < 28 := by omega
      simp only [hlt, if_false]
      obtain ⟨magic, hmagic, -⟩ := le32_isSome data 0 (by omega)
      rw [← memcpy32_eq_le32] at hmagic
      rw [hmagic]
      simp only
      have h1 : ¬ magic = MO_MAGIC_LE := by
        intro hc
        exact hm (Or.inl ((magic_le_iff data).mp (hc ▸ hmagic)))
      have h2 : ¬ magic = MO_MAGIC_BE := by
        intro hc
        exact hm (Or.inr ((magic_be_iff data).mp (hc ▸ hmagic)))
      simp only [h1, h2, if_false]
  · refine ⟨r._needSwap, ?_⟩
    unfold load
    have hlt : data.length < 28 := by omega
    simp only [hlt, if_true]

theorem headerOk_of_load_true {r r2 : MoReader} {data : Bytes}
    (h : load r data = some (true, r2)) : headerOk data = true := by
  by_contra hc
  obtain ⟨sw, h2⟩ := load_of_not_headerOk r data (by simpa using hc)
  rw [h] at h2
  simp at h2

theorem load_true_iff (r r2 : MoReader) (data : Bytes) (N O T : Nat)
    (hN : numStrings data = some N) (hO : origTable data = some O)
    (hT : transTable data = some T) :
    load r data = some (true, r2) ↔
      headerOk data = true ∧
      (∀ j, j < N → ∃ o t, stepAt (isBigEndian data) data O T j = Step.pair o t) ∧
      r2 = ⟨isBigEndian data,
        ((List.range N).map (pairAt (isBigEndian data) data O T)).foldl insertPair []⟩ := by
  constructor
  · intro h
    have hok := headerOk_of_load_true h
    rw [load_of_headerOk r data hok N O T hN hO hT] at h
    cases hl : loadLoop (isBigEndian data) data O T N 0 [] with
    | none => rw [hl] at h; cases h
    | some p =>
      obtain ⟨ret, m⟩ := p
      rw [hl] at h
      simp only [Option.some.injEq, Prod.mk.injEq] at h
      obtain ⟨h1, h2⟩ := h
      subst h1
      obtain ⟨h3, h4⟩ := (loadLoop_true_iff _ _ _ _ _ _ _ _).mp hl
      refine ⟨hok, fun j hj => h3 j (Nat.zero_le _) (by omega), ?_⟩
      rw [← h2, h4, List.range_eq_range']
  · rintro ⟨hok, h1, h2⟩
    rw [load_of_headerOk r data hok N O T hN hO hT]
    have hl := (loadLoop_true_iff (isBigEndian data) data O T N 0 [] _).mpr
      ⟨fun j _ hj => h1 j (by omega), rfl⟩
    rw [hl, h2, List.range_eq_range']

/-! ## One iteration in terms of the descriptors -/

theorem wrap_index (i : Nat) : i * 8 % 2 ^ 32 = i % 2 ^ 29 * 8 := by omega

theorem stepAt_eq (data : Bytes) (O T i : Nat) :
    stepAt (isBigEndian data) data O T i =
      match descAt data O (i % 2 ^ 29), descAt data T (i % 2 ^ 29) with
      | some (oLen, oOff), some (tLen, tOff) =>
        if (oOff + oLen) % 2 ^ 32 ≥ data.length ∨ (tOff + tLen) % 2 ^ 32 ≥ data.length then
          Step.reject
        else
          match byteRun data oOff oLen, byteRun data tOff tLen with
          | some o, some t => Step.pair o t
          | _, _ => Step.fault
      | _, _ => Step.fault := by
  unfold stepAt descAt
  rw [wrap_index]
  simp only [read32_eq_word32]
  cases word32 data (O + i % 2 ^ 29 * 8) <;> cases word32 data (O + i % 2 ^ 29 * 8 + 4) <;>
    cases word32 data (T + i % 2 ^ 29 * 8) <;> cases word32 data (T + i % 2 ^ 29 * 8 + 4) <;>
    rfl

theorem stepAt_pair_iff (data : Bytes) (O T i : Nat) (o t : Bytes) :
    stepAt (isBigEndian data) data O T i = Step.pair o t ↔
      ∃ oLen oOff tLen tOff,
        descAt data O (i % 2 ^ 29) = some (oLen, oOff) ∧
        descAt data T (i % 2 ^ 29) = some (tLen, tOff) ∧
        (oOff + oLen) % 2 ^ 32 < data.length ∧ (tOff + tLen) % 2 ^ 32 < data.length ∧
        byteRun data oOff oLen = some o ∧ byteRun data tOff tLen = some t := by
  rw [stepAt_eq]
  constructor
  · intro h
    split at h
    · rename_i oLen oOff tLen tOff h1 h2
      split at h
      · cases h
      · rename_i hc
        split at h
        · rename_i o2 t2 h3 h4
          simp only [Step.pair.injEq] at h
          obtain ⟨rfl, rfl⟩ := h
          exact ⟨oLen, oOff, tLen, tOff, h1, h2, by omega, by omega, h3, h4⟩
        · cases h
    · cases h
  · rintro ⟨oLen, oOff, tLen, tOff, h1, h2, h3, h4, h5, h6⟩
    rw [h1, h2]
    have hc : ¬ ((oOff + oLen) % 2 ^ 32 ≥ data.length ∨ (tOff + tLen) % 2 ^ 32 ≥ data.length) := by
      omega
    simp only [hc, if_false, h5, h6]

theorem pair_spec_mod {data : Bytes} {O T i : Nat} {o t : Bytes}
    (hO : origTable data = some O) (hT : transTable data = some T)
    (h : stepAt (isBigEndian data) data O T i = Step.pair o t) :
    origStr data (i % 2 ^ 29) = some o ∧ transStr data (i % 2 ^ 29) = some t := by
  obtain ⟨oLen, oOff, tLen, tOff, h1, h2, -, -, h5, h6⟩ := (stepAt_pair_iff _ _ _ _ _ _).mp h
  unfold origStr transStr origDesc transDesc
  simp only [hO, hT, h1, h2, h5, h6, and_self]

theorem pair_spec {data : Bytes} {O T i : Nat} {o t : Bytes}
    (hO : origTable data = some O) (hT : transTable data = some T) (hi : i < 2 ^ 29)
    (h : stepAt (isBigEndian data) data O T i = Step.pair o t) :
    origStr data i = some o ∧ transStr data i = some t := by
  have := pair_spec_mod hO hT h
  rwa [Nat.mod_eq_of_lt hi] at this

theorem find?_congr_mem {α : Type} (l : List α) (p q : α → Bool)
    (h : ∀ x, x ∈ l → p x = q x) : l.find? p = l.find? q := by
  induction l with
  | nil => rfl
  | cons a l ih =>
    simp only [List.find?_cons, h a (List.mem_cons_self _ _)]
    rw [ih (fun x hx => h x (List.mem_cons_of_mem _ hx))]

/-- The catalog after a successful `load` answers every context-free query with the translation
of the last descriptor pair whose original string is the queried key, as long as `i * 8` cannot
wrap (at most `2 ^ 29` string pairs). -/
theorem getTranslation_of_load (data : Bytes) (r0 r : MoReader) (N : Nat)
    (hload : load r0 data = some (true, r)) (hN : numStrings data = some N)
    (hsmall : N ≤ 2 ^ 29) (k : Bytes) :
    getTranslation r k = lastTranslation data N k := by
  have hok := headerOk_of_load_true hload
  obtain ⟨h28, -, -⟩ := (headerOk_iff data).mp hok
  obtain ⟨N2, O, T, hN2, hO, hT, -⟩ := header_fields data h28
  rw [hN] at hN2
  cases hN2
  obtain ⟨-, hpairs, hr⟩ := (load_true_iff r0 r data N O T hN hO hT).mp hload
  unfold getTranslation lastTranslation
  rw [hr]
  simp only
  rw [mapFind_foldl_insertPair, ← List.map_reverse, List.find?_map]
  have hcongr : (List.range N).reverse.find?
        ((fun p : Bytes × Bytes => decide (k ≠ [] ∧ p.1 = k)) ∘
          pairAt (isBigEndian data) data O T)
      = (List.range N).reverse.find? (fun i => decide (k ≠ [] ∧ origStr data i = some k)) := by
    apply find?_congr_mem
    intro i hi
    have hi2 : i < N := by simpa using hi
    obtain ⟨o, t, hs⟩ := hpairs i hi2
    have hsp := pair_spec hO hT (by omega) hs
    simp only [Function.comp, pairAt_of_stepAt hs, hsp.1, Option.some.injEq]
  rw [hcongr]
  cases hf : (List.range N).reverse.find? (fun i => decide (k ≠ [] ∧ origStr data i = some k)) with
  | none => simp [mapFind, _empty]
  | some i =>
    have hi : i < N := by
      have := List.mem_of_find?_eq_some hf
      simpa using this
    obtain ⟨o, t, hs⟩ := hpairs i hi
    have hsp := pair_spec hO hT (by omega) hs
    simp [pairAt_of_stepAt hs, hsp.2]

/-! ## The catalog `wrapBufOf (2 ^ 32)`: more than `2 ^ 29` string pairs -/

theorem wrapHeader_length : wrapHeader.length = 28 := rfl

theorem wrapBufOf_length (n : Nat) : (wrapBufOf n).length = n + 36 := by
  simp [wrapBufOf, wrapHeader_length, wrapTail]
  omega

theorem wrapBufOf_head (n j : Nat) (h : j < 28) : (wrapBufOf n)[j]? = wrapHeader[j]? := by
  unfold wrapBufOf
  rw [List.append_assoc, List.getElem?_append_left (by rw [wrapHeader_length]; exact h)]

theorem wrapBufOf_zero (n j : Nat) (h1 : 28 ≤ j) (h2 : j < 28 + n) :
    (wrapBufOf n)[j]? = some 0 := by
  unfold wrapBufOf
  rw [List.getElem?_append_left (by simp [wrapHeader_length]; omega),
    List.getElem?_append_right (by rw [wrapHeader_length]; exact h1)]
  rw [List.getElem?_replicate, wrapHeader_length]
  have : j - 28 < n := by omega
  simp [this]

theorem wrapBufOf_tail (n j : Nat) : (wrapBufOf n)[28 + n + j]? = wrapTail[j]? := by
  unfold wrapBufOf
  rw [List.getElem?_append_right (by simp [wrapHeader_length])]
  congr 1
  simp [wrapHeader_length]

theorem wrapBufOf_take (n : Nat) : (wrapBufOf n).take 4 = wrapHeader.take 4 := by
  unfold wrapBufOf
  rw [List.append_assoc, List.take_append_of_le_length (by rw [wrapHeader_length]; omega)]

theorem wrapBufOf_isBigEndian (n : Nat) : isBigEndian (wrapBufOf n) = false := by
  unfold isBigEndian
  rw [wrapBufOf_take]
  decide

theorem wrapBufOf_isLittleEndian (n : Nat) : isLittleEndian (wrapBufOf n) = true := by
  unfold isLittleEndian
  rw [wrapBufOf_take]
  decide

theorem wrapBufOf_word_head (n off : Nat) (h : off + 4 ≤ 28) :
    word32 (wrapBufOf n) off = le32 wrapHeader off := by
  unfold word32 le32
  rw [wrapBufOf_isBigEndian, wrapBufOf_head n off (by omega), wrapBufOf_head n (off + 1) (by omega),
    wrapBufOf_head n (off + 2) (by omega), wrapBufOf_head n (off + 3) (by omega)]
  rfl

theorem wrapBufOf_word_zero (n off : Nat) (h1 : 28 ≤ off) (h2 : off + 4 ≤ 28 + n) :
    word32 (wrapBufOf n) off = some 0 := by
  unfold word32 le32
  rw [wrapBufOf_isBigEndian, wrapBufOf_zero n off h1 (by omega),
    wrapBufOf_zero n (off + 1) (by omega) (by omega),
    wrapBufOf_zero n (off + 2) (by omega) (by omega),
    wrapBufOf_zero n (off + 3) (by omega) (by omega)]
  rfl

theorem wrapBufOf_word_tail (n j : Nat) :
    word32 (wrapBufOf n) (28 + n + j) = le32 wrapTail j := by
  unfold word32 le32
  rw [wrapBufOf_isBigEndian, wrapBufOf_tail n j, Nat.add_assoc (28 + n) j 1,
    Nat.add_assoc (28 + n) j 2, Nat.add_assoc (28 + n) j 3, wrapBufOf_tail n (j + 1),
    wrapBufOf_tail n (j + 2), wrapBufOf_tail n (j + 3)]
  rfl

theorem wrapBufOf_header (n : Nat) :
    headerOk (wrapBufOf n) = true ∧ numStrings (wrapBufOf n) = some (2 ^ 29 + 1) ∧
      origTable (wrapBufOf n) = some 28 ∧ transTable (wrapBufOf n) = some 28 := by
  refine ⟨?_, ?_, ?_, ?_⟩
  · rw [headerOk_iff, wrapBufOf_length, wrapBufOf_isLittleEndian]
    refine ⟨by omega, Or.inl rfl, 0, ?_, by decide⟩
    rw [wrapBufOf_word_head n 4 (by omega)]
    decide
  · rw [numStrings, wrapBufOf_word_head n 8 (by omega)]
    decide
  · rw [origTable, wrapBufOf_word_head n 12 (by omega)]
    decide
  · rw [transTable, wrapBufOf_word_head n 16 (by omega)]
    decide

theorem foldl_insertPair_of_empty (ps : List (Bytes × Bytes)) (m : TransMap)
    (h : ∀ p, p ∈ ps → p.1 = []) : ps.foldl insertPair m = m := by
  induction ps generalizing m with
  | nil => rfl
  | cons p ps ih =>
    have hp : insertPair m p = m := by
      simp [insertPair, h p (List.mem_cons_self _ _)]
    rw [List.foldl_cons, hp]
    exact ih m (fun q hq => h q (List.mem_cons_of_mem _ hq))

theorem wrapBufOf_desc_zero (n j : Nat) (h : j * 8 + 8 ≤ n) :
    descAt (wrapBufOf n) 28 j = some (0, 0) := by
  unfold descAt
  rw [wrapBufOf_word_zero n (28 + j * 8) (by omega) (by omega),
    wrapBufOf_word_zero n (28 + j * 8 + 4) (by omega) (by omega)]

theorem wrapBufOf_byteRun_nil (n : Nat) : byteRun (wrapBufOf n) 0 0 = some [] := by
  simp [byteRun]

theorem wrapBufOf_stepAt (n i : Nat) (hn : n = 2 ^ 32) :
    stepAt (isBigEndian (wrapBufOf n)) (wrapBufOf n) 28 28 i = Step.pair [] [] := by
  rw [stepAt_pair_iff]
  have hj : i % 2 ^ 29 * 8 + 8 ≤ n := by omega
  refine ⟨0, 0, 0, 0, wrapBufOf_desc_zero _ _ hj, wrapBufOf_desc_zero _ _ hj, ?_, ?_,
    wrapBufOf_byteRun_nil _, wrapBufOf_byteRun_nil _⟩
  · rw [wrapBufOf_length]
    omega
  · rw [wrapBufOf_length]
    omega

theorem wrapBufOf_load (n : Nat) (hn : n = 2 ^ 32) (r0 : MoReader) :
    load r0 (wrapBufOf n) = some (true, ⟨false, []⟩) := by
  obtain ⟨hok, hN, hO, hT⟩ := wrapBufOf_header n
  rw [load_true_iff r0 _ (wrapBufOf n) (2 ^ 29 + 1) 28 28 hN hO hT]
  refine ⟨hok, fun j _ => ⟨[], [], wrapBufOf_stepAt n j hn⟩, ?_⟩
  rw [foldl_insertPair_of_empty]
  · rw [wrapBufOf_isBigEndian]
  · intro p hp
    obtain ⟨i, -, hi⟩ := List.mem_map.mp hp
    rw [← hi, pairAt_of_stepAt (wrapBufOf_stepAt n i hn)]

theorem wrapBufOf_last_desc (n c : Nat) (hn : c * 8 = n) :
    descAt (wrapBufOf n) 28 c = some (1, 0) := by
  unfold descAt
  have e1 : 28 + c * 8 = 28 + n + 0 := by omega
  have e2 : 28 + c * 8 + 4 = 28 + n + 4 := by omega
  rw [e2, e1, wrapBufOf_word_tail, wrapBufOf_word_tail]
  rfl

theorem wrapBufOf_byteRun (n : Nat) : byteRun (wrapBufOf n) 0 1 = some [0xde] := by
  unfold byteRun
  rw [wrapBufOf_length]
  have h : 0 + 1 ≤ n + 36 := by omega
  simp only [h, if_true, List.drop_zero, Option.some.injEq]
  unfold wrapBufOf
  rw [List.append_assoc, List.take_append_of_le_length (by rw [wrapHeader_length]; omega)]
  rfl

theorem wrapBufOf_last_strings (n c : Nat) (hn : c * 8 = n) :
    origStr (wrapBufOf n) c = some [0xde] ∧ transStr (wrapBufOf n) c = some [0xde] := by
  obtain ⟨-, -, hO, hT⟩ := wrapBufOf_header n
  unfold origStr transStr origDesc transDesc
  simp only [hO, hT, wrapBufOf_last_desc n c hn, wrapBufOf_byteRun n, and_self]

theorem lastTranslation_last (data : Bytes) (n : Nat) (k t : Bytes) (hk : k ≠ [])
    (h1 : origStr data n = some k) (h2 : transStr data n = some t) :
    lastTranslation data (n + 1) k = t := by
  unfold lastTranslation
  rw [List.range_succ, List.reverse_append, List.reverse_singleton, List.singleton_append,
    List.find?_cons_of_pos]
  · simp only [h2, Option.getD_some]
  · simp [h1, hk]

/-! ## Reader states and key uniqueness -/

theorem mapFind_of_mem (m : TransMap) (k v : Bytes) (hu : (m.map Prod.fst).Nodup)
    (h : (k, v) ∈ m) : mapFind m k = some v := by
  induction m with
  | nil => cases h
  | cons e rest ih =>
    obtain ⟨k1, v1⟩ := e
    rw [List.map_cons, List.nodup_cons] at hu
    rcases List.mem_cons.mp h with h1 | h1
    · simp only [Prod.mk.injEq] at h1
      simp [mapFind, h1.1, h1.2]
    · have hne : k1 ≠ k := by
        intro hc
        subst hc
        exact hu.1 (List.mem_map.mpr ⟨(k1, v), h1, rfl⟩)
      simp only [mapFind, hne, if_false]
      exact ih hu.2 h1

theorem mapFind_of_not_mem_keys (m : TransMap) (k : Bytes) (h : k ∉ m.map Prod.fst) :
    mapFind m k = none :=
  (mapFind_eq_none_iff m k).mpr (fun v hv => h (List.mem_map.mpr ⟨(k, v), hv, rfl⟩))

theorem load_indep (r r1 : MoReader) (data : Bytes) (hok : headerOk data = true) :
    load r data = load r1 data := by
  obtain ⟨h28, -, -⟩ := (headerOk_iff data).mp hok
  obtain ⟨N, O, T, hN, hO, hT, -⟩ := header_fields data h28
  rw [load_of_headerOk r data hok N O T hN hO hT, load_of_headerOk r1 data hok N O T hN hO hT]

theorem mem_foldl_insertPair (ps : List (Bytes × Bytes)) (m : TransMap) (e : Bytes × Bytes)
    (h : e ∈ ps.foldl insertPair m) : e ∈ m ∨ (e ∈ ps ∧ e.1 ≠ []) := by
  induction ps generalizing m with
  | nil => exact Or.inl h
  | cons p ps ih =>
    rw [List.foldl_cons] at h
    rcases ih _ h with h1 | h1
    · unfold insertPair at h1
      split at h1
      · rename_i hp
        rcases mem_mapAssign _ _ _ _ h1 with h2 | h2
        · refine Or.inr ⟨?_, ?_⟩
          · rw [h2]
            exact List.mem_cons_self _ _
          · rw [h2]
            exact hp
        · exact Or.inl h2
      · exact Or.inl h1
    · exact Or.inr ⟨List.mem_cons_of_mem _ h1.1, h1.2⟩

theorem load_translations_cases {r r2 : MoReader} {data : Bytes} {b : Bool}
    (h : load r data = some (b, r2)) :
    r2._translations = r._translations ∨
      ∃ ps : List (Bytes × Bytes), r2._translations = ps.foldl insertPair [] := by
  cases hok : headerOk data with
  | false =>
    obtain ⟨sw, h2⟩ := load_of_not_headerOk r data hok
    rw [h] at h2
    simp only [Option.some.injEq, Prod.mk.injEq] at h2
    left
    rw [h2.2]
  | true =>
    obtain ⟨h28, -, -⟩ := (headerOk_iff data).mp hok
    obtain ⟨N, O, T, hN, hO, hT, -⟩ := header_fields data h28
    rw [load_of_headerOk r data hok N O T hN hO hT] at h
    cases hl : loadLoop (isBigEndian data) data O T N 0 [] with
    | none => rw [hl] at h; cases h
    | some p =>
      obtain ⟨ret, m⟩ := p
      rw [hl] at h
      simp only [Option.some.injEq, Prod.mk.injEq] at h
      obtain ⟨h1, h2⟩ := h
      right
      rw [← h2]
      cases ret with
      | true => exact ⟨_, ((loadLoop_true_iff _ _ _ _ _ _ _ _).mp hl).2⟩
      | false =>
        obtain ⟨c, -, -, -, h3⟩ := (loadLoop_false_iff _ _ _ _ _ _ _ _).mp hl
        exact ⟨_, h3⟩

theorem mem_keys_mapAssign (m : TransMap) (k v k2 : Bytes)
    (h : k2 ∈ (mapAssign m k v).map Prod.fst) : k2 = k ∨ k2 ∈ m.map Prod.fst := by
  obtain ⟨e, he, rfl⟩ := List.mem_map.mp h
  rcases mem_mapAssign m k v e he with h1 | h1
  · left
    rw [h1]
  · right
    exact List.mem_map.mpr ⟨e, h1, rfl⟩

theorem mapAssign_nodup (m : TransMap) (k v : Bytes) (h : (m.map Prod.fst).Nodup) :
    ((mapAssign m k v).map Prod.fst).Nodup := by
  induction m with
  | nil => simp [mapAssign]
  | cons e rest ih =>
    obtain ⟨k1, v1⟩ := e
    rw [List.map_cons, List.nodup_cons] at h
    by_cases h1 : k1 = k
    · simp only [mapAssign, h1, if_true, List.map_cons, List.nodup_cons]
      exact ⟨h1 ▸ h.1, h.2⟩
    · simp only [mapAssign, h1, if_false, List.map_cons, List.nodup_cons]
      refine ⟨?_, ih h.2⟩
      intro hc
      rcases mem_keys_mapAssign _ _ _ _ hc with h2 | h2
      · exact h1 h2
      · exact h.1 h2

theorem foldl_insertPair_nodup (ps : List (Bytes × Bytes)) (m : TransMap)
    (h : (m.map Prod.fst).Nodup) : ((ps.foldl insertPair m).map Prod.fst).Nodup := by
  induction ps generalizing m with
  | nil => exact h
  | cons p ps ih =>
    rw [List.foldl_cons]
    apply ih
    unfold insertPair
    split
    · exact mapAssign_nodup _ _ _ h
    · exact h

/-- Every reachable reader holds a map with unique keys, as every `std::unordered_map` does. -/
theorem reachable_nodup {r : MoReader} (h : Reachable r) :
    (r._translations.map Prod.fst).Nodup := by
  induction h with
  | fresh => exact List.nodup_nil
  | load data _ hload ih =>
    rcases load_translations_cases hload with h1 | ⟨ps, h1⟩
    · rw [h1]
      exact ih
    · rw [h1]
      exact foldl_insertPair_nodup ps [] List.nodup_nil

theorem reachable_keys_nonempty {r : MoReader} (h : Reachable r) :
    ∀ k v, (k, v) ∈ r._translations → k ≠ [] := by
  induction h with
  | fresh =>
    intro k v hkv
    cases hkv
  | load data _ hload ih =>
    intro k v hkv
    rcases load_translations_cases hload with h1 | ⟨ps, h1⟩
    · rw [h1] at hkv
      exact ih k v hkv
    · rw [h1] at hkv
      rcases mem_foldl_insertPair ps [] (k, v) hkv with h2 | h2
      · cases h2
      · exact h2.2

/-! ## Totality of the loop when the tables lie inside the buffer -/

theorem loadLoop_total (sw : Bool) (data : Bytes) (O T n i : Nat) (m : TransMap)
    (h : ∀ j, i ≤ j → j < i + n → stepAt sw data O T j ≠ Step.fault) :
    ∃ b m2, loadLoop sw data O T n i m = some (b, m2) ∧
      (b = true ↔ ∀ j, i ≤ j → j < i + n → ∃ o t, stepAt sw data O T j = Step.pair o t) := by
  induction n generalizing i m with
  | zero =>
    refine ⟨true, m, rfl, ?_⟩
    simp only [true_iff]
    intro j h1 h2
    omega
  | succ n ih =>
    rw [loadLoop_succ]
    cases hs : stepAt sw data O T i with
    | fault => exact absurd hs (h i (le_refl _) (by omega))
    | reject =>
      refine ⟨false, m, rfl, ?_⟩
      simp only [Bool.false_eq_true, false_iff, not_forall]
      refine ⟨i, le_refl _, by omega, ?_⟩
      rintro ⟨o, t, h2⟩
      rw [hs] at h2
      cases h2
    | pair o t =>
      obtain ⟨b, m2, h1, h2⟩ := ih (i + 1) (insertPair m (o, t))
        (fun j hj1 hj2 => h j (by omega) (by omega))
      refine ⟨b, m2, h1, ?_⟩
      rw [h2]
      constructor
      · intro h3 j hj1 hj2
        by_cases hj : j = i
        · subst hj
          exact ⟨o, t, hs⟩
        · exact h3 j (by omega) (by omega)
      · intro h3 j hj1 hj2
        exact h3 j (by omega) (by omega)

theorem descAt_isSome (data : Bytes) (table i : Nat) (h : table + i * 8 + 8 ≤ data.length) :
    ∃ len off, descAt data table i = some (len, off) := by
  obtain ⟨len, h1, -⟩ := word32_isSome data (table + i * 8) (by omega)
  obtain ⟨off, h2, -⟩ := word32_isSome data (table + i * 8 + 4) (by omega)
  exact ⟨len, off, by simp only [descAt, h1, h2]⟩

theorem byteRun_isSome (data : Bytes) (off len : Nat) (h : off + len ≤ data.length) :
    ∃ s, byteRun data off len = some s := by
  exact ⟨(data.drop off).take len, by simp only [byteRun, h, if_true]⟩

/-- With both tables inside the buffer and descriptor sums below `2 ^ 32`, iteration `i` either
rejects or takes a pair, and it takes a pair exactly when both descriptors of index
`i % 2 ^ 29` end before the last byte of the buffer. -/
theorem stepAt_checked (data : Bytes) (N O T i : Nat) (hi : i < N)
    (hO : origTable data = some O) (hT : transTable data = some T)
    (hOin : O + N * 8 ≤ data.length) (hTin : T + N * 8 ≤ data.length)
    (hsum : ∀ j len off, j < N →
      (origDesc data j = some (len, off) ∨ transDesc data j = some (len, off)) →
      off + len ≤ 2 ^ 32 - 1) :
    stepAt (isBigEndian data) data O T i ≠ Step.fault ∧
      ((∃ o t, stepAt (isBigEndian data) data O T i = Step.pair o t) ↔
        ∀ len off, (origDesc data (i % 2 ^ 29) = some (len, off) ∨
          transDesc data (i % 2 ^ 29) = some (len, off)) → off + len ≤ data.length - 1) := by
  have hj : i % 2 ^ 29 < N := lt_of_le_of_lt (Nat.mod_le _ _) hi
  obtain ⟨oLen, oOff, ho⟩ := descAt_isSome data O (i % 2 ^ 29) (by omega)
  obtain ⟨tLen, tOff, ht⟩ := descAt_isSome data T (i % 2 ^ 29) (by omega)
  have ho2 : origDesc data (i % 2 ^ 29) = some (oLen, oOff) := by
    simp only [origDesc, hO, ho]
  have ht2 : transDesc data (i % 2 ^ 29) = some (tLen, tOff) := by
    simp only [transDesc, hT, ht]
  have hso := hsum _ _ _ hj (Or.inl ho2)
  have hst := hsum _ _ _ hj (Or.inr ht2)
  have hmo : (oOff + oLen) % 2 ^ 32 = oOff + oLen := Nat.mod_eq_of_lt (by omega)
  have hmt : (tOff + tLen) % 2 ^ 32 = tOff + tLen := Nat.mod_eq_of_lt (by omega)
  rw [stepAt_eq, ho, ht]
  simp only [hmo, hmt]
  by_cases hc : oOff + oLen ≥ data.length ∨ tOff + tLen ≥ data.length
  · simp only [hc, if_true, ne_eq, reduceCtorEq, not_false_eq_true, exists_const,
      exists_false, false_iff, true_and, not_forall]
    rcases hc with hc | hc
    · exact ⟨oLen, oOff, Or.inl ho2, by omega⟩
    · exact ⟨tLen, tOff, Or.inr ht2, by omega⟩
  · simp only [hc, if_false]
    obtain ⟨so, hso2⟩ := byteRun_isSome data oOff oLen (by omega)
    obtain ⟨st, hst2⟩ := byteRun_isSome data tOff tLen (by omega)
    rw [hso2, hst2]
    refine ⟨by simp, ?_⟩
    constructor
    · intro _ len off hlo
      rcases hlo with hlo | hlo
      · rw [ho2] at hlo
        simp only [Option.some.injEq, Prod.mk.injEq] at hlo
        omega
      · rw [ht2] at hlo
        simp only [Option.some.injEq, Prod.mk.injEq] at hlo
        omega
    · intro _
      exact ⟨so, st, rfl⟩

/-! ## The byte-swapped counterpart of a little-endian catalog -/

theorem byteSwapped_length (data : Bytes) : (byteSwapped data).length = data.length := by
  unfold byteSwapped
  split
  · simp
  · rfl

theorem byteSwapped_getElem? (data : Bytes) (n o t j : Nat) (hn : le32 data 8 = some n)
    (ho : le32 data 12 = some o) (ht : le32 data 16 = some t) (hj : j < data.length)
    (hs : swapSource n o t j < data.length) :
    (byteSwapped data)[j]? = data[swapSource n o t j]? := by
  unfold byteSwapped
  simp only [hn, ho, ht, List.getElem?_map, List.getElem?_range hj, Option.map_some',
    List.getD_eq_getElem?_getD, List.getElem?_eq_getElem hs, Option.getD_some]

theorem mirror_word (base w b : Nat) (hb : b < 4) :
    mirror base (base + 4 * w + b) = base + 4 * w + (3 - b) := by
  unfold mirror
  have h1 : (base + 4 * w + b - base) / 4 = w := by omega
  have h2 : (base + 4 * w + b - base) % 4 = b := by omega
  rw [h1, h2]

theorem be32_of_reversed (d d2 : Bytes) (p : Nat) (h0 : d2[p]? = d[p + 3]?)
    (h1 : d2[p + 1]? = d[p + 2]?) (h2 : d2[p + 2]? = d[p + 1]?) (h3 : d2[p + 3]? = d[p]?) :
    be32 d2 p = le32 d p := by
  unfold be32 le32
  rw [h0, h1, h2, h3]
  cases d[p]? <;> cases d[p + 1]? <;> cases d[p + 2]? <;> cases d[p + 3]? <;>
    first
    | rfl
    | exact congrArg some (by omega)

/-- A 4-byte word `base + 4 * w` whose four positions all have their source mirrored within the
word reads big-endian in the swapped buffer what it reads little-endian in the original. -/
theorem byteSwapped_word (data : Bytes) (n o t base w : Nat) (hn : le32 data 8 = some n)
    (ho : le32 data 12 = some o) (ht : le32 data 16 = some t)
    (hin : base + 4 * w + 4 ≤ data.length)
    (hsrc : ∀ b, b < 4 → swapSource n o t (base + 4 * w + b) = mirror base (base + 4 * w + b)) :
    be32 (byteSwapped data) (base + 4 * w) = le32 data (base + 4 * w) := by
  have key : ∀ b, b < 4 →
      (byteSwapped data)[base + 4 * w + b]? = data[base + 4 * w + (3 - b)]? := by
    intro b hb
    have e := hsrc b hb
    rw [mirror_word base w b hb] at e
    rw [byteSwapped_getElem? data n o t _ hn ho ht (by omega) (by rw [e]; omega), e]
  apply be32_of_reversed
  · exact key 0 (by omega)
  · exact key 1 (by omega)
  · exact key 2 (by omega)
  · have := key 3 (by omega)
    simpa using this

theorem swapSource_header (n o t j : Nat) (hj : j < 20) : swapSource n o t j = mirror 0 j := by
  simp only [swapSource, hj, if_true]

theorem swapSource_orig (n o t j : Nat) (h20 : 20 ≤ j) (h1 : o ≤ j) (h2 : j < o + n * 8) :
    swapSource n o t j = mirror o j := by
  have : ¬ j < 20 := by omega
  simp only [swapSource, this, if_false, h1, h2, and_self, if_true]

theorem swapSource_trans (n o t j : Nat) (h20 : 20 ≤ j) (hno : ¬ (o ≤ j ∧ j < o + n * 8))
    (h1 : t ≤ j) (h2 : j < t + n * 8) : swapSource n o t j = mirror t j := by
  have : ¬ j < 20 := by omega
  simp only [swapSource, this, if_false, hno, h1, h2, and_self, if_true]

theorem swapSource_other (n o t j : Nat) (h20 : 20 ≤ j) (hno : ¬ (o ≤ j ∧ j < o + n * 8))
    (hnt : ¬ (t ≤ j ∧ j < t + n * 8)) : swapSource n o t j = j := by
  have : ¬ j < 20 := by omega
  simp only [swapSource, this, if_false, hno, hnt]

theorem byteSwapped_header_word (data : Bytes) (n o t w : Nat) (hn : le32 data 8 = some n)
    (ho : le32 data 12 = some o) (ht : le32 data 16 = some t) (h28 : 28 ≤ data.length)
    (hw : w < 5) : be32 (byteSwapped data) (4 * w) = le32 data (4 * w) := by
  have := byteSwapped_word data n o t 0 w hn ho ht (by omega)
    (fun b hb => swapSource_header n o t _ (by omega))
  simpa using this

theorem byteRun_congr (d d2 : Bytes) (off len : Nat) (hlen : d2.length = d.length)
    (h : ∀ j, off ≤ j → j < off + len → d2[j]? = d[j]?) :
    byteRun d2 off len = byteRun d off len := by
  unfold byteRun
  rw [hlen]
  split
  · congr 1
    apply List.ext_getElem?
    intro i
    rw [List.getElem?_take, List.getElem?_take]
    split
    · rw [List.getElem?_drop, List.getElem?_drop]
      exact h _ (by omega) (by omega)
    · rfl
  · rfl

theorem isBigEndian_of_be32 (d : Bytes) (h : be32 d 0 = some MO_MAGIC_LE) :
    isBigEndian d = true := by
  unfold be32 MO_MAGIC_LE at h
  unfold isBigEndian
  split at h
  · rename_i b0 b1 b2 b3 h0 h1 h2 h3
    rw [take_four d b0 b1 b2 b3 h0 h1 h2 h3]
    simp only [Option.some.injEq] at h
    have := uint8_lt b0
    have := uint8_lt b1
    have := uint8_lt b2
    have := uint8_lt b3
    have e0 : b0 = 0x95 := uint8_eq_of_toNat (by show b0.toNat = 0x95; omega)
    have e1 : b1 = 0x04 := uint8_eq_of_toNat (by show b1.toNat = 0x04; omega)
    have e2 : b2 = 0x12 := uint8_eq_of_toNat (by show b2.toNat = 0x12; omega)
    have e3 : b3 = 0xde := uint8_eq_of_toNat (by show b3.toNat = 0xde; omega)
    subst e0 e1 e2 e3
    rfl
  · cases h

theorem byteSwapped_isBigEndian (data : Bytes) (hle : isLittleEndian data = true)
    (h28 : 28 ≤ data.length) : isBigEndian (byteSwapped data) = true := by
  obtain ⟨n, hn, -⟩ := le32_isSome data 8 (by omega)
  obtain ⟨o, ho, -⟩ := le32_isSome data 12 (by omega)
  obtain ⟨t, ht, -⟩ := le32_isSome data 16 (by omega)
  have hw := byteSwapped_header_word data n o t 0 hn ho ht h28 (by omega)
  have hm := (magic_le_iff data).mpr hle
  rw [memcpy32_eq_le32] at hm
  rw [Nat.mul_zero, hm] at hw
  exact isBigEndian_of_be32 _ hw

theorem word32_of_le (data : Bytes) (hle : isLittleEndian data = true) (off : Nat) :
    word32 data off = le32 data off := by
  simp only [word32, not_le_and_be data hle, Bool.false_eq_true, if_false]

theorem word32_of_be (data : Bytes) (hbe : isBigEndian data = true) (off : Nat) :
    word32 data off = be32 data off := by
  simp only [word32, hbe, if_true]

/-- The five header fields of the swapped catalog, read in its byte order, are those of the
original. -/
theorem byteSwapped_header (data : Bytes) (hle : isLittleEndian data = true)
    (h28 : 28 ≤ data.length) (w : Nat) (hw : w < 5) :
    word32 (byteSwapped data) (4 * w) = word32 data (4 * w) := by
  obtain ⟨n, hn, -⟩ := le32_isSome data 8 (by omega)
  obtain ⟨o, ho, -⟩ := le32_isSome data 12 (by omega)
  obtain ⟨t, ht, -⟩ := le32_isSome data 16 (by omega)
  rw [word32_of_le data hle, word32_of_be _ (byteSwapped_isBigEndian data hle h28),
    byteSwapped_header_word data n o t w hn ho ht h28 hw]

theorem byteSwapped_headerOk (data : Bytes) (hle : isLittleEndian data = true)
    (hok : headerOk data = true) : headerOk (byteSwapped data) = true := by
  obtain ⟨h28, -, rev, hrev, hmajor⟩ := (headerOk_iff data).mp hok
  rw [headerOk_iff, byteSwapped_length]
  refine ⟨h28, Or.inr (byteSwapped_isBigEndian data hle h28), rev, ?_, hmajor⟩
  rw [← hrev]
  exact byteSwapped_header data hle h28 1 (by omega)

theorem nonOverlapping_spec (data : Bytes) (n o t : Nat) (hN : numStrings data = some n)
    (hO : origTable data = some o) (hT : transTable data = some t)
    (h : nonOverlapping data = true) :
    disjointRanges 0 28 o (n * 8) = true ∧ disjointRanges 0 28 t (n * 8) = true ∧
      disjointRanges o (n * 8) t (n * 8) = true ∧
      ∀ i, i < n →
        (∀ len off, origDesc data i = some (len, off) → stringClear n o t len off = true) ∧
        (∀ len off, transDesc data i = some (len, off) → stringClear n o t len off = true) := by
  unfold nonOverlapping at h
  rw [hN, hO, hT] at h
  simp only [Bool.and_eq_true, List.all_eq_true, List.mem_range] at h
  obtain ⟨⟨⟨h1, h2⟩, h3⟩, h4⟩ := h
  refine ⟨h1, h2, h3, fun i hi => ⟨?_, ?_⟩⟩
  · intro len off hd
    have := (h4 i hi).1
    rw [hd] at this
    exact this
  · intro len off hd
    have := (h4 i hi).2
    rw [hd] at this
    exact this

theorem byteSwapped_desc_orig (data : Bytes) (n o t j : Nat) (hle : isLittleEndian data = true)
    (h28 : 28 ≤ data.length) (hN : numStrings data = some n)
    (hO : origTable data = some o) (hT : transTable data = some t)
    (hd1 : disjointRanges 0 28 o (n * 8) = true) (hj : j < n)
    (hin : o + j * 8 + 8 ≤ data.length) :
    descAt (byteSwapped data) o j = descAt data o j := by
  have hbe := byteSwapped_isBigEndian data hle h28
  rw [numStrings, word32_of_le data hle] at hN
  rw [origTable, word32_of_le data hle] at hO
  rw [transTable, word32_of_le data hle] at hT
  simp only [disjointRanges, decide_eq_true_eq] at hd1
  have e1 : o + j * 8 = o + 4 * (2 * j) := by omega
  have e2 : o + j * 8 + 4 = o + 4 * (2 * j + 1) := by omega
  unfold descAt
  rw [word32_of_be _ hbe, word32_of_be _ hbe, word32_of_le data hle, word32_of_le data hle,
    e2, e1]
  rw [byteSwapped_word data n o t o (2 * j) hN hO hT (by omega)
      (fun b hb => swapSource_orig n o t _ (by omega) (by omega) (by omega)),
    byteSwapped_word data n o t o (2 * j + 1) hN hO hT (by omega)
      (fun b hb => swapSource_orig n o t _ (by omega) (by omega) (by omega))]

theorem byteSwapped_desc_trans (data : Bytes) (n o t j : Nat)
    (hle : isLittleEndian data = true)
    (h28 : 28 ≤ data.length) (hN : numStrings data = some n)
    (hO : origTable data = some o) (hT : transTable data = some t)
    (hd2 : disjointRanges 0 28 t (n * 8) = true)
    (hd3 : disjointRanges o (n * 8) t (n * 8) = true) (hj : j < n)
    (hin : t + j * 8 + 8 ≤ data.length) :
    descAt (byteSwapped data) t j = descAt data t j := by
  have hbe := byteSwapped_isBigEndian data hle h28
  rw [numStrings, word32_of_le data hle] at hN
  rw [origTable, word32_of_le data hle] at hO
  rw [transTable, word32_of_le data hle] at hT
  simp only [disjointRanges, decide_eq_true_eq] at hd2 hd3
  have e1 : t + j * 8 = t + 4 * (2 * j) := by omega
  have e2 : t + j * 8 + 4 = t + 4 * (2 * j + 1) := by omega
  unfold descAt
  rw [word32_of_be _ hbe, word32_of_be _ hbe, word32_of_le data hle, word32_of_le data hle,
    e2, e1]
  rw [byteSwapped_word data n o t t (2 * j) hN hO hT (by omega)
      (fun b hb => swapSource_trans n o t _ (by omega) (by omega) (by omega) (by omega)),
    byteSwapped_word data n o t t (2 * j + 1) hN hO hT (by omega)
      (fun b hb => swapSource_trans n o t _ (by omega) (by omega) (by omega) (by omega))]

theorem byteSwapped_byteRun (data : Bytes) (n o t len off : Nat)
    (hle : isLittleEndian data = true) (hN : numStrings data = some n)
    (hO : origTable data = some o) (hT : transTable data = some t)
    (hclear : stringClear n o t len off = true) :
    byteRun (byteSwapped data) off len = byteRun data off len := by
  rw [numStrings, word32_of_le data hle] at hN
  rw [origTable, word32_of_le data hle] at hO
  rw [transTable, word32_of_le data hle] at hT
  simp only [stringClear, disjointRanges, Bool.and_eq_true, decide_eq_true_eq] at hclear
  obtain ⟨⟨hc1, hc2⟩, hc3⟩ := hclear
  apply byteRun_congr _ _ _ _ (byteSwapped_length data)
  intro j hj1 hj2
  by_cases hjl : j < data.length
  · have hsrc : swapSource n o t j = j :=
      swapSource_other n o t j (by omega) (by omega) (by omega)
    rw [byteSwapped_getElem? data n o t j hN hO hT hjl (by rw [hsrc]; exact hjl), hsrc]
  · rw [List.getElem?_eq_none (by rw [byteSwapped_length]; omega),
      List.getElem?_eq_none (by omega)]

/-- An iteration that takes a pair on the little-endian catalog takes the same pair on its
byte-swapped counterpart. -/
theorem byteSwapped_stepAt (data : Bytes) (n o t i : Nat) (oi ti : Bytes)
    (hle : isLittleEndian data = true) (h28 : 28 ≤ data.length)
    (hN : numStrings data = some n) (hO : origTable data = some o)
    (hT : transTable data = some t) (hno : nonOverlapping data = true) (hi : i < n)
    (h : stepAt (isBigEndian data) data o t i = Step.pair oi ti) :
    stepAt (isBigEndian (byteSwapped data)) (byteSwapped data) o t i = Step.pair oi ti := by
  obtain ⟨hd1, hd2, hd3, hstr⟩ := nonOverlapping_spec data n o t hN hO hT hno
  have hj : i % 2 ^ 29 < n := lt_of_le_of_lt (Nat.mod_le _ _) hi
  obtain ⟨oLen, oOff, tLen, tOff, h1, h2, h3, h4, h5, h6⟩ :=
    (stepAt_pair_iff _ _ _ _ _ _).mp h
  have hoin : o + i % 2 ^ 29 * 8 + 8 ≤ data.length := by
    unfold descAt at h1
    cases hw : word32 data (o + i % 2 ^ 29 * 8 + 4) with
    | none => rw [hw] at h1; cases word32 data (o + i % 2 ^ 29 * 8) <;> simp at h1
    | some v => exact (word32_some_bound hw).1
  have htin : t + i % 2 ^ 29 * 8 + 8 ≤ data.length := by
    unfold descAt at h2
    cases hw : word32 data (t + i % 2 ^ 29 * 8 + 4) with
    | none => rw [hw] at h2; cases word32 data (t + i % 2 ^ 29 * 8) <;> simp at h2
    | some v => exact (word32_some_bound hw).1
  have ho2 : origDesc data (i % 2 ^ 29) = some (oLen, oOff) := by
    simp only [origDesc, hO, h1]
  have ht2 : transDesc data (i % 2 ^ 29) = some (tLen, tOff) := by
    simp only [transDesc, hT, h2]
  rw [stepAt_pair_iff]
  refine ⟨oLen, oOff, tLen, tOff, ?_, ?_, ?_, ?_, ?_, ?_⟩
  · rw [byteSwapped_desc_orig data n o t _ hle h28 hN hO hT hd1 hj hoin, h1]
  · rw [byteSwapped_desc_trans data n o t _ hle h28 hN hO hT hd2 hd3 hj htin, h2]
  · rw [byteSwapped_length]
    exact h3
  · rw [byteSwapped_length]
    exact h4
  · rw [byteSwapped_byteRun data n o t oLen oOff hle hN hO hT ((hstr _ hj).1 _ _ ho2), h5]
  · rw [byteSwapped_byteRun data n o t tLen tOff hle hN hO hT ((hstr _ hj).2 _ _ ht2), h6]

/-! ## Header rejections and the swap flag -/

theorem loadBody_needSwap {sw ret : Bool} {r r2 : MoReader} {data : Bytes}
    (h : loadBody sw r data = some (ret, r2)) : r2._needSwap = sw := by
  unfold loadBody at h
  split at h
  · cases h
  · split at h
    · simp only [Option.some.injEq, Prod.mk.injEq] at h
      rw [← h.2]
    · split at h
      · split at h
        · simp only [Option.some.injEq, Prod.mk.injEq] at h
          rw [← h.2]
        · cases h
      · cases h

theorem bswap32_involutive (v : Nat) (hv : v < 2 ^ 32) : bswap32 (bswap32 v) = v := by
  have e : v = v % 256 + 2 ^ 8 * (v / 256 % 256) + 2 ^ 16 * (v / 65536 % 256)
      + 2 ^ 24 * (v / 16777216) := by omega
  rw [e, bswap32_bytes _ _ _ _ (by omega) (by omega) (by omega) (by omega)]
  have e2 : 2 ^ 24 * (v % 256) + 2 ^ 16 * (v / 256 % 256) + 2 ^ 8 * (v / 65536 % 256)
      + v / 16777216
      = v / 16777216 + 2 ^ 8 * (v / 65536 % 256) + 2 ^ 16 * (v / 256 % 256)
        + 2 ^ 24 * (v % 256) := by omega
  rw [e2, bswap32_bytes _ _ _ _ (by omega) (by omega) (by omega) (by omega)]
  omega

/-- After the magic has been accepted `load` is `loadBody` run with the flag that the magic
selects, and every return of it stores that flag; it does return when the major revision is
above 1, and when both tables lie inside the buffer and no descriptor sum exceeds
`2 ^ 32 - 1`. -/
theorem load_stores_flag (r : MoReader) (buf : Bytes) (h28 : 28 ≤ buf.length)
    (hm : isLittleEndian buf = true ∨ isBigEndian buf = true) :
    load r buf = loadBody (isBigEndian buf) r buf ∧
      (∀ ret r2, load r buf = some (ret, r2) → r2._needSwap = isBigEndian buf) ∧
      ((∃ rev, word32 buf 4 = some rev ∧ rev / 2 ^ 16 > 1) →
        ∃ r2, load r buf = some (false, r2) ∧ r2._needSwap = isBigEndian buf) ∧
      (∀ N O T, numStrings buf = some N → origTable buf = some O →
        transTable buf = some T → O + N * 8 ≤ buf.length → T + N * 8 ≤ buf.length →
        (∀ i len off, i < N →
          (origDesc buf i = some (len, off) ∨ transDesc buf i = some (len, off)) →
          off + len ≤ 2 ^ 32 - 1) →
        ∃ ret r2, load r buf = some (ret, r2) ∧ r2._needSwap = isBigEndian buf) := by
  have heq := load_eq_loadBody r buf h28 hm
  obtain ⟨rev, hrev, -⟩ := word32_isSome buf 4 (by omega)
  obtain ⟨N, O, T, hN, hO, hT, -⟩ := header_fields buf h28
  have hbody := loadBody_isBigEndian r buf rev N O T hrev hN hO hT
  refine ⟨heq, ?_, ?_, ?_⟩
  · intro ret r2 h
    rw [heq] at h
    exact loadBody_needSwap h
  · rintro ⟨rev2, hrev2, hmajor⟩
    rw [hrev] at hrev2
    cases hrev2
    rw [heq, hbody]
    simp only [hmajor, if_true]
    exact ⟨_, rfl, rfl⟩
  · intro N2 O2 T2 hN2 hO2 hT2 hOin hTin hsum
    rw [hN] at hN2
    rw [hO] at hO2
    rw [hT] at hT2
    cases hN2
    cases hO2
    cases hT2
    rw [heq, hbody]
    by_cases hmajor : rev / 2 ^ 16 > 1
    · simp only [hmajor, if_true]
      exact ⟨_, _, rfl, rfl⟩
    · simp only [hmajor, if_false]
      obtain ⟨b, m2, hl, -⟩ := loadLoop_total (isBigEndian buf) buf O T N 0 []
        (fun j _ hj => (stepAt_checked buf N O T j (by omega) hO hT hOin hTin hsum).1)
      rw [hl]
      exact ⟨_, _, rfl, rfl⟩

/-! ## Buffers that differ in the minor version: `load` does the same -/

theorem loadLoop_congr (sw1 sw2 : Bool) (d1 d2 : Bytes) (O T n i : Nat) (m : TransMap)
    (h : ∀ j, i ≤ j → j < i + n → stepAt sw1 d1 O T j = stepAt sw2 d2 O T j) :
    loadLoop sw1 d1 O T n i m = loadLoop sw2 d2 O T n i m := by
  induction n generalizing i m with
  | zero => rfl
  | succ n ih =>
    rw [loadLoop_succ, loadLoop_succ, h i (le_refl _) (by omega)]
    cases stepAt sw2 d2 O T i with
    | fault => rfl
    | reject => rfl
    | pair o t => exact ih (i + 1) _ (fun j h1 h2 => h j (by omega) (by omega))

theorem load_bad_magic (r : MoReader) (data : Bytes) (h28 : 28 ≤ data.length)
    (hle : isLittleEndian data = false) (hbe : isBigEndian data = false) :
    load r data = some (false, r) := by
  unfold load
  have hlt : ¬ data.length < 28 := by omega
  simp only [hlt, if_false]
  obtain ⟨magic, hmagic, -⟩ := le32_isSome data 0 (by omega)
  rw [← memcpy32_eq_le32] at hmagic
  rw [hmagic]
  simp only
  have h1 : ¬ magic = MO_MAGIC_LE := by
    intro hc
    have := (magic_le_iff data).mp (hc ▸ hmagic)
    rw [hle] at this
    cases this
  have h2 : ¬ magic = MO_MAGIC_BE := by
    intro hc
    have := (magic_be_iff data).mp (hc ▸ hmagic)
    rw [hbe] at this
    cases this
  simp only [h1, h2, if_false]

theorem word32_congr (d1 d2 : Bytes) (p : Nat) (hbe : isBigEndian d1 = isBigEndian d2)
    (h : ∀ b, b < 4 → d1[p + b]? = d2[p + b]?) : word32 d1 p = word32 d2 p := by
  have h0 := h 0 (by omega)
  have h1 := h 1 (by omega)
  have h2 := h 2 (by omega)
  have h3 := h 3 (by omega)
  rw [Nat.add_zero] at h0
  unfold word32 be32 le32
  rw [hbe, h0, h1, h2, h3]

theorem sameUpToMinor_spec {d1 d2 : Bytes} (h : sameUpToMinor d1 d2 = true) :
    d1.length = d2.length ∧ isLittleEndian d1 = isLittleEndian d2 ∧
      isBigEndian d1 = isBigEndian d2 ∧
      (∀ j, j < 4 ∨ 8 ≤ j → d1[j]? = d2[j]?) ∧
      (word32 d1 4).map (fun rev => rev / 2 ^ 16)
        = (word32 d2 4).map (fun rev => rev / 2 ^ 16) := by
  simp only [sameUpToMinor, Bool.and_eq_true, decide_eq_true_eq, beq_iff_eq] at h
  obtain ⟨⟨⟨hlen, htake⟩, hdrop⟩, hrev⟩ := h
  refine ⟨hlen, ?_, ?_, ?_, hrev⟩
  · simp only [isLittleEndian, htake]
  · simp only [isBigEndian, htake]
  · intro j hj
    rcases hj with hj | hj
    · rw [← List.getElem?_take_of_lt hj, htake, List.getElem?_take_of_lt hj]
    · have e : j = 8 + (j - 8) := by omega
      rw [e, ← List.getElem?_drop, hdrop, List.getElem?_drop]

theorem revisionClear_spec (data : Bytes) (n o t : Nat) (hN : numStrings data = some n)
    (hO : origTable data = some o) (hT : transTable data = some t)
    (h : revisionClear data = true) :
    disjointRanges o (n * 8) 4 4 = true ∧ disjointRanges t (n * 8) 4 4 = true ∧
      ∀ i, i < n →
        (∀ len off, origDesc data i = some (len, off) → disjointRanges off len 4 4 = true) ∧
        (∀ len off, transDesc data i = some (len, off) → disjointRanges off len 4 4 = true) := by
  unfold revisionClear at h
  rw [hN, hO, hT] at h
  simp only [Bool.and_eq_true, List.all_eq_true, List.mem_range] at h
  obtain ⟨⟨h1, h2⟩, h4⟩ := h
  refine ⟨h1, h2, fun i hi => ⟨?_, ?_⟩⟩
  · intro len off hd
    have := (h4 i hi).1
    rw [hd] at this
    exact this
  · intro len off hd
    have := (h4 i hi).2
    rw [hd] at this
    exact this

theorem descAt_congr (d1 d2 : Bytes) (table n j : Nat) (hbe : isBigEndian d1 = isBigEndian d2)
    (hbytes : ∀ q, q < 4 ∨ 8 ≤ q → d1[q]? = d2[q]?)
    (hd : disjointRanges table (n * 8) 4 4 = true) (hj : j < n) :
    descAt d1 table j = descAt d2 table j := by
  simp only [disjointRanges, decide_eq_true_eq] at hd
  unfold descAt
  rw [word32_congr d1 d2 (table + j * 8) hbe (fun b hb => hbytes _ (by omega)),
    word32_congr d1 d2 (table + j * 8 + 4) hbe (fun b hb => hbytes _ (by omega))]

theorem byteRun_congr_clear (d1 d2 : Bytes) (off len : Nat) (hlen : d1.length = d2.length)
    (hbytes : ∀ q, q < 4 ∨ 8 ≤ q → d1[q]? = d2[q]?)
    (hd : disjointRanges off len 4 4 = true) : byteRun d1 off len = byteRun d2 off len := by
  simp only [disjointRanges, decide_eq_true_eq] at hd
  exact byteRun_congr d2 d1 off len hlen (fun q h1 h2 => hbytes q (by omega))

/-- Every iteration does the same on two buffers that differ only in the minor version, when
the revision field is overlapped by no table and no referenced string. -/
theorem stepAt_minor (d1 d2 : Bytes) (n o t i : Nat) (hs : sameUpToMinor d1 d2 = true)
    (hN : numStrings d1 = some n) (hO : origTable d1 = some o) (hT : transTable d1 = some t)
    (hc : revisionClear d1 = true) (hi : i < n) :
    stepAt (isBigEndian d1) d1 o t i = stepAt (isBigEndian d2) d2 o t i := by
  obtain ⟨hlen, -, hbe, hbytes, -⟩ := sameUpToMinor_spec hs
  obtain ⟨hd1, hd2, hstr⟩ := revisionClear_spec d1 n o t hN hO hT hc
  have hj : i % 2 ^ 29 < n := lt_of_le_of_lt (Nat.mod_le _ _) hi
  rw [stepAt_eq, stepAt_eq, ← descAt_congr d1 d2 o n _ hbe hbytes hd1 hj,
    ← descAt_congr d1 d2 t n _ hbe hbytes hd2 hj, ← hlen]
  cases ho : descAt d1 o (i % 2 ^ 29) with
  | none => rfl
  | some po =>
    obtain ⟨oLen, oOff⟩ := po
    cases ht : descAt d1 t (i % 2 ^ 29) with
    | none => rfl
    | some pt =>
      obtain ⟨tLen, tOff⟩ := pt
      have ho2 : origDesc d1 (i % 2 ^ 29) = some (oLen, oOff) := by
        simp only [origDesc, hO, ho]
      have ht2 : transDesc d1 (i % 2 ^ 29) = some (tLen, tOff) := by
        simp only [transDesc, hT, ht]
      simp only
      rw [byteRun_congr_clear d1 d2 oOff oLen hlen hbytes ((hstr _ hj).1 _ _ ho2),
        byteRun_congr_clear d1 d2 tOff tLen hlen hbytes ((hstr _ hj).2 _ _ ht2)]

theorem load_minor (r : MoReader) (d1 d2 : Bytes) (hs : sameUpToMinor d1 d2 = true)
    (hc : revisionClear d1 = true) : load r d1 = load r d2 := by
  obtain ⟨hlen, hle, hbe, hbytes, hrev⟩ := sameUpToMinor_spec hs
  by_cases h28 : 28 ≤ d1.length
  · have h28b : 28 ≤ d2.length := by omega
    by_cases hm : isLittleEndian d1 = true ∨ isBigEndian d1 = true
    · have hm2 : isLittleEndian d2 = true ∨ isBigEndian d2 = true := by
        rw [← hle, ← hbe]
        exact hm
      obtain ⟨rev1, hrev1, -⟩ := word32_isSome d1 4 (by omega)
      obtain ⟨rev2, hrev2, -⟩ := word32_isSome d2 4 (by omega)
      obtain ⟨N, O, T, hN, hO, hT, -⟩ := header_fields d1 h28
      have hN2 : numStrings d2 = some N := by
        rw [← hN]
        exact (word32_congr d1 d2 8 hbe (fun b hb => hbytes _ (by omega))).symm
      have hO2 : origTable d2 = some O := by
        rw [← hO]
        exact (word32_congr d1 d2 12 hbe (fun b hb => hbytes _ (by omega))).symm
      have hT2 : transTable d2 = some T := by
        rw [← hT]
        exact (word32_congr d1 d2 16 hbe (fun b hb => hbytes _ (by omega))).symm
      rw [hrev1, hrev2] at hrev
      simp only [Option.map_some', Option.some.injEq] at hrev
      rw [load_eq_loadBody r d1 h28 hm, load_eq_loadBody r d2 h28b hm2,
        loadBody_isBigEndian r d1 rev1 N O T hrev1 hN hO hT,
        loadBody_isBigEndian r d2 rev2 N O T hrev2 hN2 hO2 hT2, hrev,
        loadLoop_congr (isBigEndian d1) (isBigEndian d2) d1 d2 O T N 0 []
          (fun j _ hj => stepAt_minor d1 d2 N O T j hs hN hO hT hc (by omega)), hbe]
    · have h1 : isLittleEndian d1 = false := by
        cases h : isLittleEndian d1 with
        | false => rfl
        | true => exact absurd (Or.inl h) hm
      have h2 : isBigEndian d1 = false := by
        cases h : isBigEndian d1 with
        | false => rfl
        | true => exact absurd (Or.inr h) hm
      rw [load_bad_magic r d1 h28 h1 h2,
        load_bad_magic r d2 h28b (hle ▸ h1) (hbe ▸ h2)]
  · unfold load
    have hlt : d1.length < 28 := by omega
    have hlt2 : d2.length < 28 := by omega
    simp only [hlt, hlt2, if_true]

/-! ## `size()` and the distinct original strings -/

theorem mem_nonEmptyOriginals (data : Bytes) (n : Nat) (k : Bytes) :
    k ∈ nonEmptyOriginals data n ↔ k ≠ [] ∧ ∃ j, j < n ∧ origStr data j = some k := by
  unfold nonEmptyOriginals
  simp only [List.mem_filter, List.mem_filterMap, List.mem_range, decide_eq_true_eq]
  constructor
  · rintro ⟨⟨j, hj, h⟩, hk⟩
    exact ⟨hk, j, hj, h⟩
  · rintro ⟨hk, j, hj, h⟩
    exact ⟨⟨j, hj, h⟩, hk⟩

theorem length_nonEmptyOriginals_le (data : Bytes) (n : Nat) :
    (nonEmptyOriginals data n).length ≤ n := by
  unfold nonEmptyOriginals
  calc (List.filter _ _).length
      ≤ ((List.range n).filterMap (origStr data)).length := List.length_filter_le _ _
    _ ≤ (List.range n).length := List.length_filterMap_le _ _
    _ = n := List.length_range n

theorem length_nonEmptyOriginals_lt (data : Bytes) (n i : Nat) (hi : i < n)
    (h : origStr data i = some []) : (nonEmptyOriginals data n).length < n := by
  unfold nonEmptyOriginals
  have h1 : (((List.range n).filterMap (origStr data)).filter
      (fun s => decide (s ≠ []))).length
      < ((List.range n).filterMap (origStr data)).length := by
    rw [List.length_filter_lt_length_iff_exists]
    refine ⟨[], List.mem_filterMap.mpr ⟨i, List.mem_range.mpr hi, h⟩, ?_⟩
    simp
  have h2 : ((List.range n).filterMap (origStr data)).length ≤ (List.range n).length :=
    List.length_filterMap_le _ _
  rw [List.length_range] at h2
  exact lt_of_lt_of_le h1 h2

theorem mem_keys_mapAssign_self (m : TransMap) (k v : Bytes) :
    k ∈ (mapAssign m k v).map Prod.fst := by
  have h := mapFind_mapAssign_self m k v
  by_contra hc
  rw [mapFind_of_not_mem_keys _ _ hc] at h
  cases h

theorem mem_keys_mapAssign_of_mem (m : TransMap) (k v k2 : Bytes)
    (h : k2 ∈ m.map Prod.fst) : k2 ∈ (mapAssign m k v).map Prod.fst := by
  by_cases hk : k = k2
  · subst hk
    exact mem_keys_mapAssign_self m k v
  · by_contra hc
    have h1 := mapFind_of_not_mem_keys _ _ hc
    rw [mapFind_mapAssign_ne m k v k2 hk] at h1
    rw [mapFind_eq_none_iff] at h1
    obtain ⟨e, he, hfst⟩ := List.mem_map.mp h
    obtain ⟨k3, v3⟩ := e
    simp only at hfst
    subst hfst
    exact h1 v3 he

theorem mem_keys_foldl_insertPair (ps : List (Bytes × Bytes)) (m : TransMap) (k : Bytes) :
    k ∈ (ps.foldl insertPair m).map Prod.fst ↔
      k ∈ m.map Prod.fst ∨ (k ≠ [] ∧ k ∈ ps.map Prod.fst) := by
  induction ps generalizing m with
  | nil => simp
  | cons p ps ih =>
    rw [List.foldl_cons, ih]
    obtain ⟨o, t⟩ := p
    simp only [List.map_cons, List.mem_cons]
    unfold insertPair
    by_cases ho : o = []
    · simp only [ho, ne_eq, not_true_eq_false, if_false]
      constructor
      · rintro (h | ⟨h1, h2⟩)
        · exact Or.inl h
        · exact Or.inr ⟨h1, Or.inr h2⟩
      · rintro (h | ⟨h1, h2 | h2⟩)
        · exact Or.inl h
        · exact absurd h2 h1
        · exact Or.inr ⟨h1, h2⟩
    · simp only [ne_eq, ho, not_false_eq_true, if_true]
      constructor
      · rintro (h | ⟨h1, h2⟩)
        · rcases mem_keys_mapAssign _ _ _ _ h with h3 | h3
          · exact Or.inr ⟨h3 ▸ ho, Or.inl h3⟩
          · exact Or.inl h3
        · exact Or.inr ⟨h1, Or.inr h2⟩
      · rintro (h | ⟨h1, h2 | h2⟩)
        · exact Or.inl (mem_keys_mapAssign_of_mem _ _ _ _ h)
        · exact Or.inl (h2 ▸ mem_keys_mapAssign_self _ _ _)
        · exact Or.inr ⟨h1, h2⟩

/-- The keys held after a successful `load`: the non-empty first components of the pairs taken
by the iterations. -/
theorem mem_keys_of_load {r0 r : MoReader} {data : Bytes} {N O T : Nat}
    (hload : load r0 data = some (true, r)) (hN : numStrings data = some N)
    (hO : origTable data = some O) (hT : transTable data = some T) (k : Bytes) :
    k ∈ r._translations.map Prod.fst ↔
      k ≠ [] ∧ ∃ j, j < N ∧ ∃ t, stepAt (isBigEndian data) data O T j = Step.pair k t := by
  obtain ⟨-, hpairs, hr⟩ := (load_true_iff r0 r data N O T hN hO hT).mp hload
  rw [hr]
  simp only
  rw [mem_keys_foldl_insertPair]
  simp only [List.map_nil, List.not_mem_nil, false_or, List.map_map, List.mem_map,
    List.mem_range, Function.comp]
  constructor
  · rintro ⟨hk, j, hj, hp⟩
    obtain ⟨o, t, hs⟩ := hpairs j hj
    rw [pairAt_of_stepAt hs] at hp
    simp only at hp
    subst hp
    exact ⟨hk, j, hj, t, hs⟩
  · rintro ⟨hk, j, hj, t, hs⟩
    exact ⟨hk, j, hj, by rw [pairAt_of_stepAt hs]⟩

theorem nodup_keys_of_load {r0 r : MoReader} {data : Bytes}
    (hload : load r0 data = some (true, r)) : (r._translations.map Prod.fst).Nodup := by
  rcases load_translations_cases hload with h | ⟨ps, h⟩
  · have hok := headerOk_of_load_true hload
    obtain ⟨h28, -, -⟩ := (headerOk_iff data).mp hok
    obtain ⟨N, O, T, hN, hO, hT, -⟩ := header_fields data h28
    obtain ⟨-, -, hr⟩ := (load_true_iff r0 r data N O T hN hO hT).mp hload
    rw [hr]
    exact foldl_insertPair_nodup _ [] List.nodup_nil
  · rw [h]
    exact foldl_insertPair_nodup ps [] List.nodup_nil

theorem size_eq_length_keys (r : MoReader) : r.size = (r._translations.map Prod.fst).length := by
  simp [MoReader.size]

/-- After a successful `load` of a catalog with at most `2 ^ 29` string pairs, `size()` is the
number of distinct non-empty original strings. -/
theorem size_of_load {r0 r : MoReader} {data : Bytes} {N : Nat}
    (hload : load r0 data = some (true, r)) (hN : numStrings data = some N)
    (hsmall : N ≤ 2 ^ 29) : r.size = distinctOriginals data N := by
  have hok := headerOk_of_load_true hload
  obtain ⟨h28, -, -⟩ := (headerOk_iff data).mp hok
  obtain ⟨N2, O, T, hN2, hO, hT, -⟩ := header_fields data h28
  rw [hN] at hN2
  cases hN2
  obtain ⟨-, hpairs, -⟩ := (load_true_iff r0 r data N O T hN hO hT).mp hload
  rw [size_eq_length_keys, distinctOriginals]
  apply List.Perm.length_eq
  rw [List.perm_ext_iff_of_nodup (nodup_keys_of_load hload) (List.nodup_dedup _)]
  intro k
  rw [List.mem_dedup, mem_nonEmptyOriginals, mem_keys_of_load hload hN hO hT]
  constructor
  · rintro ⟨hk, j, hj, t, hs⟩
    exact ⟨hk, j, hj, (pair_spec hO hT (by omega) hs).1⟩
  · rintro ⟨hk, j, hj, ho⟩
    obtain ⟨o, t, hs⟩ := hpairs j hj
    have := (pair_spec hO hT (by omega) hs).1
    rw [ho] at this
    cases this
    exact ⟨hk, j, hj, t, hs⟩

/-- After every successful `load`, `size()` is at most the number of non-empty original strings
among the first `min N (2 ^ 29)` descriptors. -/
theorem size_le_of_load {r0 r : MoReader} {data : Bytes} {N M : Nat}
    (hload : load r0 data = some (true, r)) (hN : numStrings data = some N)
    (hM : M = min N (2 ^ 29)) : r.size ≤ (nonEmptyOriginals data M).length := by
  have hok := headerOk_of_load_true hload
  obtain ⟨h28, -, -⟩ := (headerOk_iff data).mp hok
  obtain ⟨N2, O, T, hN2, hO, hT, -⟩ := header_fields data h28
  rw [hN] at hN2
  cases hN2
  rw [size_eq_length_keys]
  apply List.Subperm.length_le
  apply List.subperm_of_subset (nodup_keys_of_load hload)
  intro k hk
  obtain ⟨hk1, j, hj, t, hs⟩ := (mem_keys_of_load hload hN hO hT k).mp hk
  rw [mem_nonEmptyOriginals]
  refine ⟨hk1, j % 2 ^ 29, ?_, (pair_spec_mod hO hT hs).1⟩
  have h1 : j % 2 ^ 29 ≤ j := Nat.mod_le _ _
  have h2 : j % 2 ^ 29 < 2 ^ 29 := Nat.mod_lt _ (by norm_num)
  omega

/-- After every successful `load`, `size()` is at most N, and at most N - 1 when the buffer
contains the metadata entry with an empty original string; for a catalog with at most `2 ^ 29`
string pairs `size()` is the number of distinct non-empty original strings. -/
theorem size_bounds_of_load (r0 r : MoReader) (data : Bytes) (N : Nat)
    (hload : load r0 data = some (true, r)) (hN : numStrings data = some N) :
    (N ≤ 2 ^ 29 → r.size = distinctOriginals data N) ∧ r.size ≤ N ∧
      ((∃ i, i < N ∧ origStr data i = some []) → r.size ≤ N - 1) := by
  obtain ⟨M, hM⟩ : ∃ M, M = min N (2 ^ 29) := ⟨_, rfl⟩
  have hle := size_le_of_load hload hN hM
  have hM1 : M ≤ N := by omega
  have hM2 : M ≤ 2 ^ 29 := by omega
  have hlen := length_nonEmptyOriginals_le data M
  refine ⟨size_of_load hload hN, by omega, ?_⟩
  rintro ⟨i, hi, hmeta⟩
  by_cases hsmall : N ≤ 2 ^ 29
  · have hMN : M = N := by omega
    have := length_nonEmptyOriginals_lt data M i (by omega) hmeta
    omega
  · omega

theorem nonEmptyOriginals_of_all_empty (data : Bytes) (c : Nat)
    (h : ∀ j, j < c → origStr data j = some []) : nonEmptyOriginals data c = [] := by
  rw [List.eq_nil_iff_forall_not_mem]
  intro k hk
  obtain ⟨hk1, j, hj, ho⟩ := (mem_nonEmptyOriginals data c k).mp hk
  rw [h j hj] at ho
  cases ho
  exact hk1 rfl

theorem wrapBufOf_first_strings (n j : Nat) (h : j * 8 + 8 ≤ n) :
    origStr (wrapBufOf n) j = some [] := by
  obtain ⟨-, -, hO, -⟩ := wrapBufOf_header n
  unfold origStr origDesc
  simp only [hO, wrapBufOf_desc_zero n j h, wrapBufOf_byteRun_nil]

theorem wrapBufOf_distinctOriginals (n c : Nat) (hn : c * 8 = n) :
    distinctOriginals (wrapBufOf n) (c + 1) = 1 := by
  have h1 : nonEmptyOriginals (wrapBufOf n) c = [] :=
    nonEmptyOriginals_of_all_empty _ c (fun j hj => wrapBufOf_first_strings n j (by omega))
  unfold nonEmptyOriginals at h1
  unfold distinctOriginals nonEmptyOriginals
  rw [List.range_succ, List.filterMap_append, List.filter_append, h1]
  simp [(wrapBufOf_last_strings n c hn).1]

/-! ## Loading the reference layout -/

theorem toNat_ofNat_mod (v : Nat) : (UInt8.ofNat (v % 256)).toNat = v % 256 :=
  UInt8.toNat_ofNat_of_lt (Nat.mod_lt _ (by decide))

theorem le32_encode32 (v : Nat) (hv : v < 2 ^ 32) (rest : Bytes) :
    le32 (encode32 v ++ rest) 0 = some v := by
  simp only [le32, encode32, List.cons_append, List.nil_append, List.getElem?_cons_zero,
    List.getElem?_cons_succ, Nat.zero_add, Option.some.injEq, toNat_ofNat_mod]
  omega

theorem le32_drop (data : Bytes) (off : Nat) : le32 data off = le32 (data.drop off) 0 := by
  simp only [le32, List.getElem?_drop, Nat.add_zero, Nat.zero_add]

theorem le32_of_drop (data : Bytes) (off v : Nat) (rest : Bytes) (hv : v < 2 ^ 32)
    (h : data.drop off = encode32 v ++ rest) : le32 data off = some v := by
  rw [le32_drop, h, le32_encode32 v hv]

theorem encode32_length (v : Nat) : (encode32 v).length = 4 := rfl

theorem moHeader_length (n : Nat) : (moHeader n).length = 28 := by
  simp [moHeader, encode32_length]

theorem strArea_cons (s : Bytes) (ss : List Bytes) : strArea (s :: ss) = s ++ [0] ++ strArea ss := by
  simp [strArea]

theorem strArea_append (s1 s2 : List Bytes) : strArea (s1 ++ s2) = strArea s1 ++ strArea s2 := by
  simp [strArea]

theorem strArea_split (ss : List Bytes) (i : Nat) (hi : i < ss.length) :
    strArea ss = strArea (ss.take i) ++ (ss[i] ++ ([0] ++ strArea (ss.drop (i + 1)))) := by
  conv_lhs => rw [← List.take_append_drop i ss, List.drop_eq_getElem_cons hi]
  rw [strArea_append, strArea_cons]
  simp

theorem descTable_length (ss : List Bytes) (start : Nat) :
    (descTable ss start).length = 8 * ss.length := by
  unfold descTable
  generalize ss.length = n
  induction n with
  | zero => simp
  | succ n ih =>
    rw [List.range_succ, List.map_append, List.flatten_append, List.length_append, ih]
    simp [encode32_length]
    omega

theorem descTable_drop (ss : List Bytes) (start i : Nat) (hi : i < ss.length) :
    ∃ rest, (descTable ss start).drop (8 * i) =
      encode32 (ss.getD i []).length
        ++ (encode32 (start + (strArea (ss.take i)).length) ++ rest) := by
  unfold descTable
  generalize hn : ss.length = n at hi
  clear hn
  induction n with
  | zero => omega
  | succ n ih =>
    rw [List.range_succ, List.map_append, List.flatten_append]
    have hlen : (((List.range n).map fun i =>
        encode32 (ss.getD i []).length
          ++ encode32 (start + (strArea (ss.take i)).length)).flatten).length = 8 * n := by
      clear ih hi
      induction n with
      | zero => simp
      | succ n ih2 =>
        rw [List.range_succ, List.map_append, List.flatten_append, List.length_append, ih2]
        simp [encode32_length]
        omega
    by_cases hin : i < n
    · obtain ⟨rest, hrest⟩ := ih hin
      rw [List.drop_append_of_le_length (by rw [hlen]; omega), hrest]
      exact ⟨_, by rw [List.append_assoc, List.append_assoc]⟩
    · have hi2 : i = n := by omega
      subst hi2
      refine ⟨[], ?_⟩
      rw [← hlen, List.drop_left]
      simp


theorem desc_read (data : Bytes) (off a b : Nat) (rest : Bytes) (ha : a < 2 ^ 32)
    (hb : b < 2 ^ 32) (h : data.drop off = encode32 a ++ (encode32 b ++ rest)) :
    le32 data off = some a ∧ le32 data (off + 4) = some b := by
  refine ⟨le32_of_drop data off a _ ha h, le32_of_drop data (off + 4) b rest hb ?_⟩
  rw [← List.drop_drop, h, List.drop_left' (encode32_length a)]

theorem byteRun_mid (A s B : Bytes) : byteRun (A ++ (s ++ B)) A.length s.length = some s := by
  unfold byteRun
  have h : A.length + s.length ≤ (A ++ (s ++ B)).length := by
    simp only [List.length_append]
    omega
  simp only [h, if_true, List.drop_left, List.take_left]

theorem encodeMo_eq (pairs : List (Bytes × Bytes)) :
    encodeMo pairs = moHeader pairs.length ++ (descTable (pairs.map Prod.fst)
      (28 + 16 * pairs.length) ++ (descTable (pairs.map Prod.snd)
        (28 + 16 * pairs.length + (strArea (pairs.map Prod.fst)).length)
      ++ (strArea (pairs.map Prod.fst) ++ strArea (pairs.map Prod.snd)))) := by
  simp only [encodeMo, List.append_assoc]

theorem encodeMo_length (pairs : List (Bytes × Bytes)) :
    (encodeMo pairs).length = 28 + 16 * pairs.length + (strArea (pairs.map Prod.fst)).length
      + (strArea (pairs.map Prod.snd)).length := by
  rw [encodeMo_eq]
  simp only [List.length_append, moHeader_length, descTable_length, List.length_map]
  omega

theorem strArea_take_length_le (ss : List Bytes) (i : Nat) (hi : i < ss.length) :
    (strArea (ss.take i)).length + ss[i].length + 1 ≤ (strArea ss).length := by
  conv_rhs => rw [strArea_split ss i hi]
  simp only [List.length_append, List.length_singleton]
  omega

theorem encodeMo_origDesc (pairs : List (Bytes × Bytes)) (i : Nat) (hi : i < pairs.length)
    (hsize : (encodeMo pairs).length < 2 ^ 32) :
    le32 (encodeMo pairs) (28 + i * 8) = some (pairs[i].1).length ∧
      le32 (encodeMo pairs) (28 + i * 8 + 4)
        = some (28 + 16 * pairs.length
            + (strArea ((pairs.map Prod.fst).take i)).length) := by
  have hlen := encodeMo_length pairs
  have hi2 : i < (pairs.map Prod.fst).length := by simpa using hi
  have hs := strArea_take_length_le (pairs.map Prod.fst) i hi2
  have hget : (pairs.map Prod.fst).getD i [] = pairs[i].1 := by
    simp [List.getD_eq_getElem?_getD, List.getElem?_eq_getElem hi]
  have hki : ((pairs.map Prod.fst)[i]).length = (pairs[i].1).length := by simp
  obtain ⟨rest, hrest⟩ := descTable_drop (pairs.map Prod.fst) (28 + 16 * pairs.length) i hi2
  rw [hget] at hrest
  have hd : ∃ rest2, (encodeMo pairs).drop (28 + i * 8)
      = encode32 (pairs[i].1).length ++ (encode32 (28 + 16 * pairs.length
          + (strArea ((pairs.map Prod.fst).take i)).length) ++ rest2) := by
    rw [encodeMo_eq]
    have e : 28 + i * 8 = (moHeader pairs.length).length + 8 * i := by
      rw [moHeader_length]
      omega
    rw [e, List.drop_append,
      List.drop_append_of_le_length (by rw [descTable_length]; omega), hrest]
    exact ⟨_, by rw [List.append_assoc, List.append_assoc]⟩
  obtain ⟨rest2, hrest2⟩ := hd
  exact desc_read _ _ _ _ rest2 (by omega) (by omega) hrest2

theorem encodeMo_transDesc (pairs : List (Bytes × Bytes)) (i : Nat) (hi : i < pairs.length)
    (hsize : (encodeMo pairs).length < 2 ^ 32) :
    le32 (encodeMo pairs) (28 + 8 * pairs.length + i * 8) = some (pairs[i].2).length ∧
      le32 (encodeMo pairs) (28 + 8 * pairs.length + i * 8 + 4)
        = some (28 + 16 * pairs.length + (strArea (pairs.map Prod.fst)).length
            + (strArea ((pairs.map Prod.snd).take i)).length) := by
  have hlen := encodeMo_length pairs
  have hi2 : i < (pairs.map Prod.snd).length := by simpa using hi
  have hs := strArea_take_length_le (pairs.map Prod.snd) i hi2
  have hget : (pairs.map Prod.snd).getD i [] = pairs[i].2 := by
    simp [List.getD_eq_getElem?_getD, List.getElem?_eq_getElem hi]
  have hki : ((pairs.map Prod.snd)[i]).length = (pairs[i].2).length := by simp
  obtain ⟨rest, hrest⟩ := descTable_drop (pairs.map Prod.snd)
    (28 + 16 * pairs.length + (strArea (pairs.map Prod.fst)).length) i hi2
  rw [hget] at hrest
  have hd : ∃ rest2, (encodeMo pairs).drop (28 + 8 * pairs.length + i * 8)
      = encode32 (pairs[i].2).length ++ (encode32 (28 + 16 * pairs.length
          + (strArea (pairs.map Prod.fst)).length
          + (strArea ((pairs.map Prod.snd).take i)).length) ++ rest2) := by
    rw [encodeMo_eq, ← List.append_assoc]
    have e : 28 + 8 * pairs.length + i * 8
        = (moHeader pairs.length
            ++ descTable (pairs.map Prod.fst) (28 + 16 * pairs.length)).length + 8 * i := by
      rw [List.length_append, moHeader_length, descTable_length, List.length_map]
      omega
    rw [e, List.drop_append,
      List.drop_append_of_le_length (by rw [descTable_length]; omega), hrest]
    exact ⟨_, by rw [List.append_assoc, List.append_assoc]⟩
  obtain ⟨rest2, hrest2⟩ := hd
  exact desc_read _ _ _ _ rest2 (by omega) (by omega) hrest2

theorem encodeMo_origStr (pairs : List (Bytes × Bytes)) (i : Nat) (hi : i < pairs.length) :
    byteRun (encodeMo pairs)
        (28 + 16 * pairs.length + (strArea ((pairs.map Prod.fst).take i)).length)
        (pairs[i].1).length = some pairs[i].1 := by
  have hi2 : i < (pairs.map Prod.fst).length := by simpa using hi
  have hki : (pairs.map Prod.fst)[i] = pairs[i].1 := by simp
  have hsplit := strArea_split (pairs.map Prod.fst) i hi2
  rw [hki] at hsplit
  rw [encodeMo_eq]
  generalize hTT : descTable (pairs.map Prod.snd)
    (28 + 16 * pairs.length + (strArea (pairs.map Prod.fst)).length) = TT
  have hTTlen : TT.length = 8 * pairs.length := by
    rw [← hTT, descTable_length, List.length_map]
  generalize hOT : descTable (pairs.map Prod.fst) (28 + 16 * pairs.length) = OT
  have hOTlen : OT.length = 8 * pairs.length := by
    rw [← hOT, descTable_length, List.length_map]
  rw [hsplit]
  have e : moHeader pairs.length ++ (OT ++ (TT ++ ((strArea ((pairs.map Prod.fst).take i)
        ++ (pairs[i].1 ++ ([0] ++ strArea ((pairs.map Prod.fst).drop (i + 1)))))
        ++ strArea (pairs.map Prod.snd))))
      = (moHeader pairs.length ++ (OT ++ (TT ++ strArea ((pairs.map Prod.fst).take i))))
        ++ (pairs[i].1 ++ (([0] ++ strArea ((pairs.map Prod.fst).drop (i + 1)))
          ++ strArea (pairs.map Prod.snd))) := by
    simp only [List.append_assoc]
  have hl : (moHeader pairs.length
        ++ (OT ++ (TT ++ strArea ((pairs.map Prod.fst).take i)))).length
      = 28 + 16 * pairs.length + (strArea ((pairs.map Prod.fst).take i)).length := by
    simp only [List.length_append, moHeader_length, hOTlen, hTTlen]
    omega
  rw [e, ← hl]
  exact byteRun_mid _ _ _

theorem encodeMo_transStr (pairs : List (Bytes × Bytes)) (i : Nat) (hi : i < pairs.length) :
    byteRun (encodeMo pairs)
        (28 + 16 * pairs.length + (strArea (pairs.map Prod.fst)).length
          + (strArea ((pairs.map Prod.snd).take i)).length)
        (pairs[i].2).length = some pairs[i].2 := by
  have hi2 : i < (pairs.map Prod.snd).length := by simpa using hi
  have hki : (pairs.map Prod.snd)[i] = pairs[i].2 := by simp
  have e : encodeMo pairs
      = (moHeader pairs.length ++ (descTable (pairs.map Prod.fst) (28 + 16 * pairs.length)
          ++ (descTable (pairs.map Prod.snd)
            (28 + 16 * pairs.length + (strArea (pairs.map Prod.fst)).length)
          ++ (strArea (pairs.map Prod.fst) ++ strArea ((pairs.map Prod.snd).take i)))))
        ++ (pairs[i].2 ++ ([0] ++ strArea ((pairs.map Prod.snd).drop (i + 1)))) := by
    rw [encodeMo_eq]
    conv_lhs => rw [strArea_split (pairs.map Prod.snd) i hi2, hki]
    simp only [List.append_assoc]
  have hl : (moHeader pairs.length ++ (descTable (pairs.map Prod.fst) (28 + 16 * pairs.length)
          ++ (descTable (pairs.map Prod.snd)
            (28 + 16 * pairs.length + (strArea (pairs.map Prod.fst)).length)
          ++ (strArea (pairs.map Prod.fst)
            ++ strArea ((pairs.map Prod.snd).take i))))).length
      = 28 + 16 * pairs.length + (strArea (pairs.map Prod.fst)).length
          + (strArea ((pairs.map Prod.snd).take i)).length := by
    simp only [List.length_append, moHeader_length, descTable_length, List.length_map]
    omega
  rw [e, ← hl]
  exact byteRun_mid _ _ _

theorem moHeader_fields (n : Nat) (body : Bytes) (hn : 28 + 16 * n < 2 ^ 32) :
    (moHeader n ++ body).take 4 = [0xde, 0x12, 0x04, 0x95] ∧
      le32 (moHeader n ++ body) 4 = some 0 ∧ le32 (moHeader n ++ body) 8 = some n ∧
      le32 (moHeader n ++ body) 12 = some 28 ∧
      le32 (moHeader n ++ body) 16 = some (28 + 8 * n) := by
  refine ⟨?_, ?_, ?_, ?_, ?_⟩
  · simp [moHeader]
  · apply le32_of_drop _ _ _ (encode32 n ++ (encode32 28 ++ (encode32 (28 + 8 * n)
      ++ (encode32 0 ++ (encode32 (28 + 16 * n) ++ body))))) (by norm_num)
    simp [moHeader]
  · apply le32_of_drop _ _ _ (encode32 28 ++ (encode32 (28 + 8 * n)
      ++ (encode32 0 ++ (encode32 (28 + 16 * n) ++ body)))) (by omega)
    simp [moHeader, encode32]
  · apply le32_of_drop _ _ _ (encode32 (28 + 8 * n)
      ++ (encode32 0 ++ (encode32 (28 + 16 * n) ++ body))) (by norm_num)
    simp [moHeader, encode32]
  · apply le32_of_drop _ _ _ (encode32 0 ++ (encode32 (28 + 16 * n) ++ body)) (by omega)
    simp [moHeader, encode32]

theorem encodeMo_header (pairs : List (Bytes × Bytes))
    (hsize : (encodeMo pairs).length < 2 ^ 32) :
    isLittleEndian (encodeMo pairs) = true ∧ headerOk (encodeMo pairs) = true ∧
      numStrings (encodeMo pairs) = some pairs.length ∧
      origTable (encodeMo pairs) = some 28 ∧
      transTable (encodeMo pairs) = some (28 + 8 * pairs.length) := by
  have hlen := encodeMo_length pairs
  have hn : 28 + 16 * pairs.length < 2 ^ 32 := by omega
  have hle : isLittleEndian (encodeMo pairs) = true := by
    rw [encodeMo_eq]
    simp only [isLittleEndian, (moHeader_fields pairs.length _ hn).1, beq_self_eq_true]
  obtain ⟨-, h4, h8, h12, h16⟩ := moHeader_fields pairs.length
    (descTable (pairs.map Prod.fst) (28 + 16 * pairs.length) ++ (descTable (pairs.map Prod.snd)
        (28 + 16 * pairs.length + (strArea (pairs.map Prod.fst)).length)
      ++ (strArea (pairs.map Prod.fst) ++ strArea (pairs.map Prod.snd)))) hn
  rw [← encodeMo_eq] at h4 h8 h12 h16
  refine ⟨hle, ?_, ?_, ?_, ?_⟩
  · rw [headerOk_iff]
    exact ⟨by omega, Or.inl hle, 0, by rw [word32_of_le _ hle, h4], by decide⟩
  · rw [numStrings, word32_of_le _ hle, h8]
  · rw [origTable, word32_of_le _ hle, h12]
  · rw [transTable, word32_of_le _ hle, h16]

theorem encodeMo_stepAt (pairs : List (Bytes × Bytes)) (i : Nat) (hi : i < pairs.length)
    (hsize : (encodeMo pairs).length < 2 ^ 32) :
    stepAt (isBigEndian (encodeMo pairs)) (encodeMo pairs) 28 (28 + 8 * pairs.length) i
      = Step.pair pairs[i].1 pairs[i].2 := by
  have hlen := encodeMo_length pairs
  have hle := (encodeMo_header pairs hsize).1
  have hi1 : i < (pairs.map Prod.fst).length := by simpa using hi
  have hi2 : i < (pairs.map Prod.snd).length := by simpa using hi
  have hs1 := strArea_take_length_le (pairs.map Prod.fst) i hi1
  have hs2 := strArea_take_length_le (pairs.map Prod.snd) i hi2
  have hk1 : ((pairs.map Prod.fst)[i]).length = (pairs[i].1).length := by simp
  have hk2 : ((pairs.map Prod.snd)[i]).length = (pairs[i].2).length := by simp
  have hmod : i % 2 ^ 29 = i := Nat.mod_eq_of_lt (by omega)
  obtain ⟨ho1, ho2⟩ := encodeMo_origDesc pairs i hi hsize
  obtain ⟨ht1, ht2⟩ := encodeMo_transDesc pairs i hi hsize
  rw [stepAt_pair_iff, hmod]
  refine ⟨_, _, _, _, ?_, ?_, ?_, ?_, encodeMo_origStr pairs i hi, encodeMo_transStr pairs i hi⟩
  · simp only [descAt, word32_of_le _ hle, ho1, ho2]
  · simp only [descAt, word32_of_le _ hle, ht1, ht2]
  · rw [Nat.mod_eq_of_lt (by omega)]
    omega
  · rw [Nat.mod_eq_of_lt (by omega)]
    omega

theorem mapAssign_of_not_mem (m : TransMap) (k v : Bytes) (h : k ∉ m.map Prod.fst) :
    mapAssign m k v = m ++ [(k, v)] := by
  induction m with
  | nil => rfl
  | cons e rest ih =>
    obtain ⟨k1, v1⟩ := e
    simp only [List.map_cons, List.mem_cons, not_or] at h
    have hne : ¬ k1 = k := fun hc => h.1 hc.symm
    simp only [mapAssign, hne, if_false, List.cons_append, ih h.2]

theorem foldl_insertPair_distinct (ps : List (Bytes × Bytes)) (m : TransMap)
    (hne : ∀ p, p ∈ ps → p.1 ≠ []) (hnd : ((m ++ ps).map Prod.fst).Nodup) :
    ps.foldl insertPair m = m ++ ps := by
  induction ps generalizing m with
  | nil => simp
  | cons p ps ih =>
    obtain ⟨k, v⟩ := p
    have hk : k ≠ [] := hne (k, v) (List.mem_cons_self _ _)
    have hnotin : k ∉ m.map Prod.fst := by
      intro hc
      rw [List.map_append, List.nodup_append] at hnd
      exact hnd.2.2 hc (by simp)
    have hstep : insertPair m (k, v) = m ++ [(k, v)] := by
      simp only [insertPair, ne_eq, hk, not_false_eq_true, if_true,
        mapAssign_of_not_mem m k v hnotin]
    rw [List.foldl_cons, hstep, ih (m ++ [(k, v)])
      (fun q hq => hne q (List.mem_cons_of_mem _ hq)) (by simpa using hnd)]
    simp

theorem map_range_getElem (pairs : List (Bytes × Bytes)) (f : Nat → Bytes × Bytes)
    (h : ∀ i (hi : i < pairs.length), f i = pairs[i]) :
    (List.range pairs.length).map f = pairs := by
  apply List.ext_getElem?
  intro i
  by_cases hi : i < pairs.length
  · rw [List.getElem?_map, List.getElem?_range hi, List.getElem?_eq_getElem hi]
    simp only [Option.map_some', h i hi]
  · rw [List.getElem?_eq_none (by simpa using hi), List.getElem?_eq_none (by omega)]

/-- Loading the reference layout of a list of pairs with pairwise distinct non-empty keys gives
a reader that holds exactly these pairs. -/
theorem load_encodeMo (r0 : MoReader) (pairs : List (Bytes × Bytes))
    (hne : ∀ p, p ∈ pairs → p.1 ≠ []) (hnd : (pairs.map Prod.fst).Nodup)
    (hsize : (encodeMo pairs).length < 2 ^ 32) :
    load r0 (encodeMo pairs) = some (true, ⟨false, pairs⟩) := by
  obtain ⟨hle, hok, hN, hO, hT⟩ := encodeMo_header pairs hsize
  rw [load_true_iff r0 _ _ pairs.length 28 (28 + 8 * pairs.length) hN hO hT]
  refine ⟨hok, fun j hj => ⟨_, _, encodeMo_stepAt pairs j hj hsize⟩, ?_⟩
  rw [map_range_getElem pairs _
    (fun i hi => pairAt_of_stepAt (encodeMo_stepAt pairs i hi hsize)),
    foldl_insertPair_distinct pairs [] hne (by simpa using hnd), not_le_and_be _ hle]
  simp

end MoReaderModel

/-! ## The claims -/

namespace MoReaderClaims

open MoReaderModel

/-- C1 (failing input): the catalog `wrapBufOf (2 ^ 32)` has `N = 2 ^ 29 + 1` string pairs and
both descriptor tables at offset 28, inside the buffer. Descriptor `2 ^ 29`, at `O + 2 ^ 32`, is
the last (and only) one with a non-empty original: original `DE`, translation `DE`, so the
translation of the last match of the key `DE` is `DE`. Iteration `i = 2 ^ 29` of `load`
computes `i * 8` in 32 bits, reads descriptor 0 again, and `load` returns true with an empty
map: `getTranslation` returns the empty string for the key `DE`. -/
theorem C1_wrapped_index_skips_descriptor :
    load MoReader.fresh (wrapBufOf (2 ^ 32)) = some (true, ⟨false, []⟩) ∧
      numStrings (wrapBufOf (2 ^ 32)) = some (2 ^ 29 + 1) ∧
      origTable (wrapBufOf (2 ^ 32)) = some 28 ∧
      transTable (wrapBufOf (2 ^ 32)) = some 28 ∧
      28 + (2 ^ 29 + 1) * 8 ≤ (wrapBufOf (2 ^ 32)).length ∧
      lastTranslation (wrapBufOf (2 ^ 32)) (2 ^ 29 + 1) [0xde] = [0xde] ∧
      getTranslation ⟨false, []⟩ [0xde] = [] ∧
      getTranslation ⟨false, []⟩ [0xde] ≠
        lastTranslation (wrapBufOf (2 ^ 32)) (2 ^ 29 + 1) [0xde] := by
  have hlast : lastTranslation (wrapBufOf (2 ^ 32)) (2 ^ 29 + 1) [0xde] = [0xde] :=
    lastTranslation_last _ _ _ _ (by decide)
      (wrapBufOf_last_strings _ _ (by norm_num)).1 (wrapBufOf_last_strings _ _ (by norm_num)).2
  refine ⟨wrapBufOf_load _ rfl _, (wrapBufOf_header _).2.1, (wrapBufOf_header _).2.2.1,
    (wrapBufOf_header _).2.2.2, ?_, hlast, rfl, ?_⟩
  · rw [wrapBufOf_length]
    norm_num
  · rw [hlast]
    decide

/-- C2 (failing input): on `overflowBuf` the header is valid and original descriptor 0 is
`(length 2, offset 0xFFFFFFFF)`, whose exact sum is far beyond the 48-byte buffer; the 32-bit
sum `oOff + oLen` wraps to 1, the bounds check passes, and `load` copies the string from
outside the buffer instead of returning false. -/
theorem C2_wrapped_sum_passes_check :
    headerOk overflowBuf = true ∧ numStrings overflowBuf = some 1 ∧
      origDesc overflowBuf 0 = some (2, 0xFFFFFFFF) ∧
      0xFFFFFFFF + 2 ≥ overflowBuf.length ∧
      (0xFFFFFFFF + 2) % 2 ^ 32 < overflowBuf.length ∧
      mkString overflowBuf 0xFFFFFFFF 2 = none ∧
      load MoReader.fresh overflowBuf = none := by
  decide

/-- C3 as stated fails: after a successful load of `demoBuf`, a load of the empty buffer
returns false and the old catalog is still there (`size() = 2`, `hello` still translated). -/
theorem C3_counterexample :
    load MoReader.fresh demoBuf = some (true, demoReader) ∧
      load demoReader [] = some (false, demoReader) ∧
      demoReader.size = 2 ∧ getTranslation demoReader hello = salut := by
  decide

/-- C3 (amended): for every reader state and every buffer that passes the header checks (at
least 28 bytes, recognised magic, major revision at most 1) and on which `load` returns false,
the old catalog is not retained: the reader afterwards is the one a fresh reader becomes by the
same call, and when the rejected descriptor pair is the first one (index 0) the catalog is
Empty: `size()` is 0 and every `getTranslation` query returns the empty string. -/
theorem C3_failed_load_drops_old_catalog (r r2 : MoReader) (data : Bytes)
    (hok : headerOk data = true) (h : load r data = some (false, r2)) :
    load MoReader.fresh data = some (false, r2) ∧
      (∀ oLen oOff tLen tOff, origDesc data 0 = some (oLen, oOff) →
        transDesc data 0 = some (tLen, tOff) →
        ((oOff + oLen) % 2 ^ 32 ≥ data.length ∨ (tOff + tLen) % 2 ^ 32 ≥ data.length) →
        r2.size = 0 ∧ ∀ k, getTranslation r2 k = []) := by
  refine ⟨by rw [load_indep MoReader.fresh r data hok]; exact h, ?_⟩
  intro oLen oOff tLen tOff ho ht hrej
  obtain ⟨h28, -, -⟩ := (headerOk_iff data).mp hok
  obtain ⟨N, O, T, hN, hO, hT, -⟩ := header_fields data h28
  have hstep : stepAt (isBigEndian data) data O T 0 = Step.reject := by
    rw [stepAt_eq]
    unfold origDesc at ho
    unfold transDesc at ht
    rw [hO] at ho
    rw [hT] at ht
    simp only at ho ht
    simp only [Nat.zero_mod, ho, ht, hrej, if_true]
  rw [load_of_headerOk r data hok N O T hN hO hT] at h
  cases N with
  | zero => simp [loadLoop] at h
  | succ n =>
    rw [loadLoop_succ, hstep] at h
    simp only [Option.some.injEq, Prod.mk.injEq, true_and] at h
    subst h
    exact ⟨rfl, fun k => rfl⟩

/-- C3 (amended), at the reader holding the catalog of `demoBuf` and the buffer `rejectBuf`,
which passes the header checks and whose first descriptor pair is rejected
(`47 + 1 = 48 = size`): the catalog is Empty afterwards. -/
theorem C3_failed_load_drops_old_catalog_witness :
    load MoReader.fresh demoBuf = some (true, demoReader) ∧
      headerOk rejectBuf = true ∧
      load demoReader rejectBuf = some (false, ⟨false, []⟩) ∧
      load MoReader.fresh rejectBuf = some (false, ⟨false, []⟩) ∧
      origDesc rejectBuf 0 = some (1, 47) ∧ transDesc rejectBuf 0 = some (0, 44) ∧
      ((47 + 1) % 2 ^ 32 ≥ rejectBuf.length ∨ (44 + 0) % 2 ^ 32 ≥ rejectBuf.length) ∧
      MoReader.size ⟨false, []⟩ = 0 ∧ (∀ k, getTranslation ⟨false, []⟩ k = []) :=
  have h := C3_failed_load_drops_old_catalog demoReader ⟨false, []⟩ rejectBuf
    (by decide) (by decide)
  have h2 := h.2 1 47 0 44 (by decide) (by decide) (by decide)
  ⟨by decide, by decide, by decide, h.1, by decide, by decide, by decide, h2.1, h2.2⟩

/-- C4 (failing input): an Empty reader loads `partialBuf`, whose second original descriptor
`(length 1, offset 63)` has `offset + length` equal to the buffer size 64. `load` returns false
at index 1, and the pair `a` → `b` taken at index 0 stays in the map: `size()` is 1. -/
theorem C4_partial_catalog_exposed :
    load MoReader.fresh partialBuf = some (false, ⟨false, [([0x61], [0x62])]⟩) ∧
      MoReader.size ⟨false, [([0x61], [0x62])]⟩ = 1 ∧
      getTranslation ⟨false, [([0x61], [0x62])]⟩ [0x61] = [0x62] ∧
      origDesc partialBuf 1 = some (1, 63) ∧ partialBuf.length = 64 := by
  decide

/-- C5: for every little-endian buffer on which `load` succeeds and whose header and
descriptor tables do not overlap each other or any referenced string bytes, the buffer obtained
by byte-reversing each of the 4-byte fields magic, revision, N, O, T and every 4-byte word of
both descriptor tables (string bytes unchanged) starts with the big-endian magic, also loads
successfully, and yields exactly the same key-to-translation mapping. -/
theorem C5_byte_swapped_same_catalog (data : Bytes) (r : MoReader)
    (hle : isLittleEndian data = true)
    (hload : load MoReader.fresh data = some (true, r))
    (hno : nonOverlapping data = true) :
    isBigEndian (byteSwapped data) = true ∧
      ∃ r2, load MoReader.fresh (byteSwapped data) = some (true, r2) ∧
        r2._translations = r._translations := by
  have hok := headerOk_of_load_true hload
  obtain ⟨h28, -, -⟩ := (headerOk_iff data).mp hok
  obtain ⟨N, O, T, hN, hO, hT, -⟩ := header_fields data h28
  obtain ⟨-, hpairs, hr⟩ := (load_true_iff _ r data N O T hN hO hT).mp hload
  have hbe := byteSwapped_isBigEndian data hle h28
  have hN2 : numStrings (byteSwapped data) = some N := by
    rw [← hN]
    exact byteSwapped_header data hle h28 2 (by omega)
  have hO2 : origTable (byteSwapped data) = some O := by
    rw [← hO]
    exact byteSwapped_header data hle h28 3 (by omega)
  have hT2 : transTable (byteSwapped data) = some T := by
    rw [← hT]
    exact byteSwapped_header data hle h28 4 (by omega)
  have hstep : ∀ j, j < N →
      stepAt (isBigEndian (byteSwapped data)) (byteSwapped data) O T j
        = Step.pair (pairAt (isBigEndian data) data O T j).1
            (pairAt (isBigEndian data) data O T j).2 := by
    intro j hj
    obtain ⟨o, t, hs⟩ := hpairs j hj
    rw [pairAt_of_stepAt hs]
    exact byteSwapped_stepAt data N O T j o t hle h28 hN hO hT hno hj hs
  refine ⟨hbe, _, (load_true_iff MoReader.fresh _ (byteSwapped data) N O T hN2 hO2 hT2).mpr
    ⟨byteSwapped_headerOk data hle hok, fun j hj => ⟨_, _, hstep j hj⟩, rfl⟩, ?_⟩
  rw [hr]
  simp only
  congr 1
  apply List.map_congr_left
  intro j hj
  rw [pairAt_of_stepAt (hstep j (by simpa using hj))]

/-- C5, at the catalog `demoBuf`. -/
theorem C5_byte_swapped_same_catalog_witness :
    isLittleEndian demoBuf = true ∧ load MoReader.fresh demoBuf = some (true, demoReader) ∧
      nonOverlapping demoBuf = true ∧ isBigEndian (byteSwapped demoBuf) = true ∧
      ∃ r2, load MoReader.fresh (byteSwapped demoBuf) = some (true, r2) ∧
        r2._translations = demoReader._translations :=
  ⟨by decide, by decide, by decide,
    C5_byte_swapped_same_catalog demoBuf demoReader (by decide) (by decide) (by decide)⟩

/-- C6: for every buffer of at least 28 bytes with a valid magic and major revision at most 1
(`headerOk`), whose descriptor tables (N entries of 8 bytes at O and at T) lie inside the buffer
and whose descriptor sums offset + length do not exceed `2 ^ 32 - 1`, `load` returns, and it
returns true if and only if every original and translation descriptor satisfies
`offset + length ≤ size - 1` (so `offset + length = size` fails and
`offset + length = size - 1` is accepted). -/
theorem C6_load_true_iff_bounds (data : Bytes) (r : MoReader) (N O T : Nat)
    (hok : headerOk data = true)
    (hN : numStrings data = some N) (hO : origTable data = some O)
    (hT : transTable data = some T)
    (hOin : O + N * 8 ≤ data.length) (hTin : T + N * 8 ≤ data.length)
    (hsum : ∀ i len off, i < N →
      (origDesc data i = some (len, off) ∨ transDesc data i = some (len, off)) →
      off + len ≤ 2 ^ 32 - 1) :
    ∃ b r2, load r data = some (b, r2) ∧
      (b = true ↔ ∀ i len off, i < N →
        (origDesc data i = some (len, off) ∨ transDesc data i = some (len, off)) →
        off + len ≤ data.length - 1) := by
  have hstep := fun i (hi : i < N) => stepAt_checked data N O T i hi hO hT hOin hTin hsum
  obtain ⟨b, m2, hl, hb⟩ := loadLoop_total (isBigEndian data) data O T N 0 []
    (fun j _ hj => (hstep j (by omega)).1)
  refine ⟨b, ⟨isBigEndian data, m2⟩, ?_, ?_⟩
  · rw [load_of_headerOk r data hok N O T hN hO hT, hl]
  · rw [hb]
    constructor
    · intro h i len off hi hlo
      by_cases hi2 : i < 2 ^ 29
      · have := (hstep i hi).2.mp (h i (Nat.zero_le _) (by omega))
        rw [Nat.mod_eq_of_lt hi2] at this
        exact this len off hlo
      · have := hsum i len off hi hlo
        omega
    · intro h j _ hj
      have hj2 : j < N := by omega
      exact (hstep j hj2).2.mpr
        (fun len off hlo => h _ len off (lt_of_le_of_lt (Nat.mod_le _ _) hj2) hlo)

/-- C6, at `demoBuf`, where translation descriptor 2 is `(length 7, offset 102)` with
`offset + length = 109 = size - 1`: `load` returns true. -/
theorem C6_load_true_iff_bounds_witness :
    headerOk demoBuf = true ∧ numStrings demoBuf = some 3 ∧ origTable demoBuf = some 28 ∧
      transTable demoBuf = some 52 ∧ 28 + 3 * 8 ≤ demoBuf.length ∧
      52 + 3 * 8 ≤ demoBuf.length ∧
      transDesc demoBuf 2 = some (7, 102) ∧ demoBuf.length = 110 ∧
      load MoReader.fresh demoBuf = some (true, demoReader) ∧
      ∃ b r2, load MoReader.fresh demoBuf = some (b, r2) ∧
        (b = true ↔ ∀ i len off, i < 3 →
          (origDesc demoBuf i = some (len, off) ∨ transDesc demoBuf i = some (len, off)) →
          off + len ≤ demoBuf.length - 1) :=
  ⟨by decide, by decide, by decide, by decide, by decide, by decide, by decide, by decide,
    by decide,
    C6_load_true_iff_bounds demoBuf MoReader.fresh 3 28 52 (by decide) (by decide) (by decide)
      (by decide) (by decide) (by decide)
      (by
        intro i len off hi hlo
        have h0 : origDesc demoBuf 0 = some (0, 76) := by decide
        have h1 : origDesc demoBuf 1 = some (5, 77) := by decide
        have h2 : origDesc demoBuf 2 = some (10, 83) := by decide
        have h3 : transDesc demoBuf 0 = some (1, 94) := by decide
        have h4 : transDesc demoBuf 1 = some (5, 96) := by decide
        have h5 : transDesc demoBuf 2 = some (7, 102) := by decide
        interval_cases i <;> simp_all <;> omega)⟩

/-- C7: for every reader state and every buffer on which `load` returns true, every entry of
the mapping afterwards has as key a non-empty original string of that buffer and as value the
translation string of the same index, and the reader afterwards is the same whatever the prior
state was: no entry of the previous catalog survives unless the new buffer defines it. -/
theorem C7_load_replaces_catalog (r r2 : MoReader) (data : Bytes) (N : Nat)
    (h : load r data = some (true, r2)) (hN : numStrings data = some N) :
    (∀ k v, (k, v) ∈ r2._translations →
        k ≠ [] ∧ ∃ i, i < N ∧ origStr data i = some k ∧ transStr data i = some v) ∧
      (∀ r1, load r1 data = some (true, r2)) := by
  have hok := headerOk_of_load_true h
  obtain ⟨h28, -, -⟩ := (headerOk_iff data).mp hok
  obtain ⟨N2, O, T, hN2, hO, hT, -⟩ := header_fields data h28
  rw [hN] at hN2
  cases hN2
  obtain ⟨-, hpairs, hr⟩ := (load_true_iff r r2 data N O T hN hO hT).mp h
  constructor
  · intro k v hkv
    rw [hr] at hkv
    rcases mem_foldl_insertPair _ _ _ hkv with h1 | ⟨h1, h2⟩
    · cases h1
    · refine ⟨h2, ?_⟩
      obtain ⟨i, hi, hp⟩ := List.mem_map.mp h1
      have hi2 : i < N := by simpa using hi
      obtain ⟨o, t, hs⟩ := hpairs i hi2
      rw [pairAt_of_stepAt hs] at hp
      simp only [Prod.mk.injEq] at hp
      obtain ⟨rfl, rfl⟩ := hp
      exact ⟨i % 2 ^ 29, lt_of_le_of_lt (Nat.mod_le _ _) hi2, pair_spec_mod hO hT hs⟩
  · intro r1
    rw [load_indep r1 r data hok]
    exact h

/-- C7, at the reader holding `a` → `b` and the buffer `demoBuf`: the entry `a` → `b` is gone
and the reader is the one a fresh reader becomes. -/
theorem C7_load_replaces_catalog_witness :
    load ⟨false, [([0x61], [0x62])]⟩ demoBuf = some (true, demoReader) ∧
      numStrings demoBuf = some 3 ∧
      load MoReader.fresh demoBuf = some (true, demoReader) ∧
      getTranslation demoReader [0x61] = [] :=
  ⟨by decide, by decide,
    (C7_load_replaces_catalog ⟨false, [([0x61], [0x62])]⟩ demoReader demoBuf 3 (by decide)
      (by decide)).2 MoReader.fresh,
    by decide⟩

/-- C8: for every catalog (a map with unique keys), msgid and context:
`getTranslation(msgid, context)` returns the value stored under the key
`context ++ [0x04] ++ msgid` when that key is present in the mapping, and otherwise returns
exactly `getTranslation(msgid)`. -/
theorem C8_context_lookup_with_fallback (r : MoReader) (msgid context : Bytes)
    (hcat : (r._translations.map Prod.fst).Nodup) :
    (∀ v, (context ++ [0x04] ++ msgid, v) ∈ r._translations →
        getTranslationCtx r msgid context = v) ∧
      (context ++ [0x04] ++ msgid ∉ r._translations.map Prod.fst →
        getTranslationCtx r msgid context = getTranslation r msgid) := by
  constructor
  · intro v hv
    unfold getTranslationCtx
    rw [mapFind_of_mem _ _ _ hcat hv]
  · intro hv
    unfold getTranslationCtx
    rw [mapFind_of_not_mem_keys _ _ hv]

/-- C8, at the catalog of `demoBuf` (`menu\x04hello` → `bonjour` is present) and at a catalog
holding only `hello` → `salut` (fallback). -/
theorem C8_context_lookup_with_fallback_witness :
    (demoReader._translations.map Prod.fst).Nodup ∧
      getTranslationCtx demoReader hello menu = bonjour ∧
      (List.map Prod.fst (MoReader.mk false [(hello, salut)])._translations).Nodup ∧
      getTranslationCtx ⟨false, [(hello, salut)]⟩ hello menu
        = getTranslation ⟨false, [(hello, salut)]⟩ hello ∧
      getTranslation ⟨false, [(hello, salut)]⟩ hello = salut :=
  ⟨by decide,
    (C8_context_lookup_with_fallback demoReader hello menu (by decide)).1 bonjour (by decide),
    by decide,
    (C8_context_lookup_with_fallback ⟨false, [(hello, salut)]⟩ hello menu (by decide)).2
      (by decide),
    by decide⟩

/-- C9: for every catalog (a map with unique keys) and every msgid: `getTranslation(msgid)`
returns the stored translation when msgid is a key of the mapping and the empty string when it
is not; the query leaves the reader, hence the mapping and `size()`, unchanged. -/
theorem C9_lookup_or_empty (r : MoReader) (msgid : Bytes)
    (hcat : (r._translations.map Prod.fst).Nodup) :
    (∀ v, (msgid, v) ∈ r._translations → getTranslation r msgid = v) ∧
      (msgid ∉ r._translations.map Prod.fst → getTranslation r msgid = []) ∧
      (∀ res r2, step r (Call.getTranslation msgid) = some (res, r2) →
        res = Result.text (getTranslation r msgid) ∧ r2._translations = r._translations ∧
          r2.size = r.size) ∧
      (step r (Call.getTranslation msgid)).isSome = true := by
  refine ⟨?_, ?_, ?_, rfl⟩
  · intro v hv
    unfold getTranslation
    rw [mapFind_of_mem _ _ _ hcat hv]
  · intro hv
    unfold getTranslation
    rw [mapFind_of_not_mem_keys _ _ hv]
    rfl
  · intro res r2 h
    simp only [step, Option.some.injEq, Prod.mk.injEq] at h
    obtain ⟨h1, h2⟩ := h
    subst h1 h2
    exact ⟨rfl, rfl, rfl⟩

/-- C9, at the catalog of `demoBuf`: the key `hello` is present, the key `menu` is not. -/
theorem C9_lookup_or_empty_witness :
    (demoReader._translations.map Prod.fst).Nodup ∧
      getTranslation demoReader hello = salut ∧ getTranslation demoReader menu = [] ∧
      step demoReader (Call.getTranslation menu) = some (Result.text [], demoReader) :=
  ⟨by decide, (C9_lookup_or_empty demoReader hello (by decide)).1 salut (by decide),
    (C9_lookup_or_empty demoReader menu (by decide)).2.1 (by decide), by decide⟩

/-- C10: in every reader state reachable from a freshly constructed reader by any sequence of
`load` calls (successful or failing), every key of the mapping is non-empty, so
`getTranslation("")` returns the empty string and no entry with an empty original string is
counted by `size()`. -/
theorem C10_keys_nonempty (r : MoReader) (h : Reachable r) :
    (∀ k v, (k, v) ∈ r._translations → k ≠ []) ∧
      getTranslation r [] = [] ∧
      r.size = (r._translations.filter (fun e => decide (e.1 ≠ []))).length := by
  have hkeys := reachable_keys_nonempty h
  refine ⟨hkeys, ?_, ?_⟩
  · unfold getTranslation
    rw [(mapFind_eq_none_iff _ _).mpr (fun v hv => hkeys [] v hv rfl)]
    rfl
  · unfold MoReader.size
    rw [List.filter_eq_self.mpr]
    intro e he
    simpa using hkeys e.1 e.2 he

/-- C10, at the reader reached by loading `demoBuf` (which contains the metadata entry) and
then the rejected buffer `partialBuf`. -/
theorem C10_keys_nonempty_witness :
    Reachable ⟨false, [([0x61], [0x62])]⟩ ∧
      getTranslation ⟨false, [([0x61], [0x62])]⟩ [] = [] ∧
      MoReader.size ⟨false, [([0x61], [0x62])]⟩ = 1 :=
  have hr : Reachable ⟨false, [([0x61], [0x62])]⟩ :=
    Reachable.load partialBuf
      (Reachable.load demoBuf Reachable.fresh
        (show load MoReader.fresh demoBuf = some (true, demoReader) by decide))
      (show load demoReader partialBuf = some (false, ⟨false, [([0x61], [0x62])]⟩) by decide)
  ⟨hr, (C10_keys_nonempty _ hr).2.1, by decide⟩

/-- C11: for every buffer of at least 28 bytes with a valid magic (in either byte order) whose
revision field, decoded in the byte order selected by the magic, has high 16 bits (major)
greater than 1, `load` returns false, whatever the rest of the buffer and the reader are. -/
theorem C11_major_revision_rejected (r : MoReader) (data : Bytes) (rev : Nat)
    (h28 : 28 ≤ data.length)
    (hmagic : isLittleEndian data = true ∨ isBigEndian data = true)
    (hrev : word32 data 4 = some rev) (hmajor : rev / 2 ^ 16 > 1) :
    ∃ r2, load r data = some (false, r2) := by
  obtain ⟨N, O, T, hN, hO, hT, -⟩ := header_fields data h28
  rw [load_eq_loadBody r data h28 hmagic, loadBody_isBigEndian r data rev N O T hrev hN hO hT]
  simp only [hmajor, if_true]
  exact ⟨_, rfl⟩

/-- C11, at a little-endian and at a big-endian header with major revision 2. -/
theorem C11_major_revision_rejected_witness :
    (28 ≤ major2Buf.length ∧ isLittleEndian major2Buf = true ∧
        word32 major2Buf 4 = some 0x20000 ∧ 0x20000 / 2 ^ 16 > 1 ∧
        ∃ r2, load MoReader.fresh major2Buf = some (false, r2)) ∧
      (28 ≤ major2BufBE.length ∧ isBigEndian major2BufBE = true ∧
        word32 major2BufBE 4 = some 0x20001 ∧ 0x20001 / 2 ^ 16 > 1 ∧
        ∃ r2, load demoReader major2BufBE = some (false, r2)) :=
  ⟨⟨by decide, by decide, by decide, by decide,
      C11_major_revision_rejected MoReader.fresh major2Buf 0x20000 (by decide)
        (Or.inl (by decide)) (by decide) (by decide)⟩,
    ⟨by decide, by decide, by decide, by decide,
      C11_major_revision_rejected demoReader major2BufBE 0x20001 (by decide)
        (Or.inr (by decide)) (by decide) (by decide)⟩⟩

/-- C13: for every buffer whose length is less than 28 bytes, `load` returns false, whatever
the bytes are (and leaves the reader as it was). -/
theorem C13_short_buffer_rejected (r : MoReader) (data : Bytes) (h : data.length < 28) :
    load r data = some (false, r) := by
  unfold load
  simp only [h, if_true]

/-- C13, at the first 27 bytes of the valid catalog `demoBuf`. -/
theorem C13_short_buffer_rejected_witness :
    (demoBuf.take 27).length < 28 ∧
      load MoReader.fresh (demoBuf.take 27) = some (false, MoReader.fresh) :=
  ⟨by decide, C13_short_buffer_rejected MoReader.fresh (demoBuf.take 27) (by decide)⟩

/-- C14: for every buffer of at least 28 bytes whose first four bytes are neither
`DE 12 04 95` nor `95 04 12 DE`, `load` returns false (and leaves the reader as it was). -/
theorem C14_bad_magic_rejected (r : MoReader) (data : Bytes) (h28 : 28 ≤ data.length)
    (hle : data.take 4 ≠ [0xde, 0x12, 0x04, 0x95])
    (hbe : data.take 4 ≠ [0x95, 0x04, 0x12, 0xde]) :
    load r data = some (false, r) := by
  have hok : headerOk data = false := by
    cases hok : headerOk data with
    | false => rfl
    | true =>
      obtain ⟨-, hm, -⟩ := (headerOk_iff data).mp hok
      rcases hm with hm | hm
      · exact absurd (by simpa [isLittleEndian] using hm) hle
      · exact absurd (by simpa [isBigEndian] using hm) hbe
  obtain ⟨sw, h⟩ := load_of_not_headerOk r data hok
  unfold load at h ⊢
  have hlt : ¬ data.length < 28 := by omega
  simp only [hlt, if_false] at h ⊢
  obtain ⟨magic, hmagic, -⟩ := le32_isSome data 0 (by omega)
  rw [← memcpy32_eq_le32] at hmagic
  rw [hmagic]
  simp only
  have h1 : ¬ magic = MO_MAGIC_LE := by
    intro hc
    have := (magic_le_iff data).mp (hc ▸ hmagic)
    exact hle (by simpa [isLittleEndian] using this)
  have h2 : ¬ magic = MO_MAGIC_BE := by
    intro hc
    have := (magic_be_iff data).mp (hc ▸ hmagic)
    exact hbe (by simpa [isBigEndian] using this)
  simp only [h1, h2, if_false]

/-- C14, at a buffer of 28 zero bytes. -/
theorem C14_bad_magic_rejected_witness :
    28 ≤ zeroBuf.length ∧ zeroBuf.take 4 ≠ [0xde, 0x12, 0x04, 0x95] ∧
      zeroBuf.take 4 ≠ [0x95, 0x04, 0x12, 0xde] ∧
      load demoReader zeroBuf = some (false, demoReader) :=
  ⟨by decide, by decide, by decide,
    C14_bad_magic_rejected demoReader zeroBuf (by decide) (by decide) (by decide)⟩

/-- C17 (failing input): `tableOobBuf` is a 28-byte buffer with a valid header that announces
one string pair with its descriptor tables at offset 28. `load` does not check the table
offsets against the buffer size: iteration 0 reads the descriptor at `data + 28`, outside the
buffer (`none`: undefined behaviour), instead of returning a boolean. -/
theorem C17_table_read_outside_buffer :
    tableOobBuf.length = 28 ∧ headerOk tableOobBuf = true ∧
      numStrings tableOobBuf = some 1 ∧ origTable tableOobBuf = some 28 ∧
      transTable tableOobBuf = some 28 ∧
      read32 false tableOobBuf (28 + 0 * 8 % 2 ^ 32) = none ∧
      load MoReader.fresh tableOobBuf = none := by
  decide

/-- C18: for every reader state and every buffer that `load` rejects at a header check (length
below 28, unrecognised magic, or major revision above 1), `load` returns false and the
key-to-translation mapping after the call is the mapping before the call: `size()` and every
`getTranslation` result are unchanged. -/
theorem C18_header_reject_keeps_mapping (r : MoReader) (data : Bytes)
    (h : data.length < 28 ∨
      (data.take 4 ≠ [0xde, 0x12, 0x04, 0x95] ∧ data.take 4 ≠ [0x95, 0x04, 0x12, 0xde]) ∨
      (∃ rev, word32 data 4 = some rev ∧ rev / 2 ^ 16 > 1)) :
    ∃ r2, load r data = some (false, r2) ∧ r2._translations = r._translations ∧
      r2.size = r.size ∧ (∀ k, getTranslation r2 k = getTranslation r k) ∧
      (∀ k c, getTranslationCtx r2 k c = getTranslationCtx r k c) := by
  have hok : headerOk data = false := by
    cases hok : headerOk data with
    | false => rfl
    | true =>
      obtain ⟨h28, hm, rev, hrev, hle⟩ := (headerOk_iff data).mp hok
      rcases h with h | ⟨h1, h2⟩ | ⟨rev2, hrev2, hmajor⟩
      · omega
      · rcases hm with hm | hm
        · exact absurd (by simpa [isLittleEndian] using hm) h1
        · exact absurd (by simpa [isBigEndian] using hm) h2
      · rw [hrev] at hrev2
        cases hrev2
        omega
  obtain ⟨sw, h2⟩ := load_of_not_headerOk r data hok
  exact ⟨_, h2, rfl, rfl, fun _ => rfl, fun _ _ => rfl⟩

/-- C18, at the reader holding the catalog of `demoBuf`, for a short buffer, a buffer with a
bad magic and a buffer with major revision 2. -/
theorem C18_header_reject_keeps_mapping_witness :
    (∃ r2, load demoReader (demoBuf.take 27) = some (false, r2) ∧
        r2._translations = demoReader._translations) ∧
      (∃ r2, load demoReader zeroBuf = some (false, r2) ∧
        r2._translations = demoReader._translations) ∧
      (∃ r2, load demoReader major2BufBE = some (false, r2) ∧
        r2._translations = demoReader._translations ∧ r2.size = 2 ∧
        getTranslation r2 hello = salut) :=
  ⟨(C18_header_reject_keeps_mapping demoReader (demoBuf.take 27)
      (Or.inl (by decide))).imp fun _ h => ⟨h.1, h.2.1⟩,
    (C18_header_reject_keeps_mapping demoReader zeroBuf
      (Or.inr (Or.inl ⟨by decide, by decide⟩))).imp fun _ h => ⟨h.1, h.2.1⟩,
    (C18_header_reject_keeps_mapping demoReader major2BufBE
      (Or.inr (Or.inr ⟨0x20001, by decide, by decide⟩))).imp fun _ h =>
        ⟨h.1, h.2.1, h.2.2.1.trans (by decide), (h.2.2.2.1 hello).trans (by decide)⟩⟩

/-- C19: for every catalog (a map with unique keys) that contains the composite key
`context ++ [0x04] ++ msgid` mapped to the empty translation, `getTranslation(msgid, context)`
returns the empty string: it does not fall back to the context-free entry, whatever the key
`msgid` is mapped to. -/
theorem C19_empty_contextual_translation (r : MoReader) (msgid context : Bytes)
    (hcat : (r._translations.map Prod.fst).Nodup)
    (h : (context ++ [0x04] ++ msgid, []) ∈ r._translations) :
    getTranslationCtx r msgid context = [] := by
  unfold getTranslationCtx
  rw [mapFind_of_mem _ _ _ hcat h]

/-- C19, at a catalog with `menu\\x04hello` → empty and `hello` → `salut`. -/
theorem C19_empty_contextual_translation_witness :
    (List.map Prod.fst
        (MoReader.mk false [(menu ++ [0x04] ++ hello, []), (hello, salut)])._translations).Nodup ∧
      (menu ++ [0x04] ++ hello, []) ∈
        (MoReader.mk false [(menu ++ [0x04] ++ hello, []), (hello, salut)])._translations ∧
      getTranslation ⟨false, [(menu ++ [0x04] ++ hello, []), (hello, salut)]⟩ hello = salut ∧
      getTranslationCtx ⟨false, [(menu ++ [0x04] ++ hello, []), (hello, salut)]⟩ hello menu
        = [] :=
  ⟨by decide, by decide, by decide,
    C19_empty_contextual_translation ⟨false, [(menu ++ [0x04] ++ hello, []), (hello, salut)]⟩
      hello menu (by decide) (by decide)⟩

/-- C20: for every four bytes `b0 b1 b2 b3` (standing at `off..off+3` of a buffer): `read32`
with the swap flag clear returns the little-endian value
`b0 + 2^8*b1 + 2^16*b2 + 2^24*b3`, `read32` with the swap flag set returns the big-endian value
`2^24*b0 + 2^16*b1 + 2^8*b2 + b3`, which is the byte-reversal `bswap32` of the former;
`bswap32` is an involution on 32-bit words; and for every buffer of at least 28 bytes whose
magic `load` accepts, `load` runs the rest of the call (`loadBody`) with the flag that is set
exactly when the first four bytes are `95 04 12 DE`, stores that flag in `_needSwap` on every
return, and does return (with the flag stored) when the major revision is above 1 and when
both descriptor tables lie inside the buffer and no descriptor sum exceeds `2 ^ 32 - 1`. -/
theorem C20_read32_byte_order (data : Bytes) (off : Nat) (b0 b1 b2 b3 : UInt8)
    (h0 : data[off]? = some b0) (h1 : data[off + 1]? = some b1)
    (h2 : data[off + 2]? = some b2) (h3 : data[off + 3]? = some b3) :
    read32 false data off
        = some (b0.toNat + 2 ^ 8 * b1.toNat + 2 ^ 16 * b2.toNat + 2 ^ 24 * b3.toNat) ∧
      read32 true data off
        = some (2 ^ 24 * b0.toNat + 2 ^ 16 * b1.toNat + 2 ^ 8 * b2.toNat + b3.toNat) ∧
      bswap32 (b0.toNat + 2 ^ 8 * b1.toNat + 2 ^ 16 * b2.toNat + 2 ^ 24 * b3.toNat)
        = 2 ^ 24 * b0.toNat + 2 ^ 16 * b1.toNat + 2 ^ 8 * b2.toNat + b3.toNat ∧
      (∀ v, v < 2 ^ 32 → bswap32 (bswap32 v) = v) ∧
      (∀ (r : MoReader) (buf : Bytes), 28 ≤ buf.length →
        (buf.take 4 = [0xde, 0x12, 0x04, 0x95] ∨ buf.take 4 = [0x95, 0x04, 0x12, 0xde]) →
        load r buf = loadBody (decide (buf.take 4 = [0x95, 0x04, 0x12, 0xde])) r buf ∧
        (∀ ret r2, load r buf = some (ret, r2) →
          (r2._needSwap = true ↔ buf.take 4 = [0x95, 0x04, 0x12, 0xde])) ∧
        ((∃ rev, word32 buf 4 = some rev ∧ rev / 2 ^ 16 > 1) →
          ∃ r2, load r buf = some (false, r2) ∧
            (r2._needSwap = true ↔ buf.take 4 = [0x95, 0x04, 0x12, 0xde])) ∧
        (∀ N O T, numStrings buf = some N → origTable buf = some O →
          transTable buf = some T → O + N * 8 ≤ buf.length → T + N * 8 ≤ buf.length →
          (∀ i len off, i < N →
            (origDesc buf i = some (len, off) ∨ transDesc buf i = some (len, off)) →
            off + len ≤ 2 ^ 32 - 1) →
          ∃ ret r2, load r buf = some (ret, r2) ∧
            (r2._needSwap = true ↔ buf.take 4 = [0x95, 0x04, 0x12, 0xde]))) := by
  refine ⟨?_, ?_, bswap32_bytes _ _ _ _ (uint8_lt _) (uint8_lt _) (uint8_lt _) (uint8_lt _),
    bswap32_involutive, ?_⟩
  · rw [read32_false]
    simp only [le32, h0, h1, h2, h3]
  · rw [read32_true]
    simp only [be32, h0, h1, h2, h3]
  · intro r buf h28 hm
    have hm2 : isLittleEndian buf = true ∨ isBigEndian buf = true := by
      rcases hm with hm | hm
      · exact Or.inl (by simp [isLittleEndian, hm])
      · exact Or.inr (by simp [isBigEndian, hm])
    have hflag : decide (buf.take 4 = [0x95, 0x04, 0x12, 0xde]) = isBigEndian buf := by
      unfold isBigEndian
      rw [Bool.eq_iff_iff]
      simp
    have hiff : ∀ b : Bool, b = isBigEndian buf →
        (b = true ↔ buf.take 4 = [0x95, 0x04, 0x12, 0xde]) := by
      intro b hb
      rw [hb]
      simp [isBigEndian]
    obtain ⟨h1, h2, h3, h4⟩ := load_stores_flag r buf h28 hm2
    refine ⟨by rw [hflag]; exact h1, fun ret r2 h => hiff _ (h2 ret r2 h), ?_, ?_⟩
    · intro hrev
      obtain ⟨r2, hl, hf⟩ := h3 hrev
      exact ⟨r2, hl, hiff _ hf⟩
    · intro N O T hN hO hT hOin hTin hsum
      obtain ⟨ret, r2, hl, hf⟩ := h4 N O T hN hO hT hOin hTin hsum
      exact ⟨ret, r2, hl, hiff _ hf⟩

/-- C20, at the magic bytes of `demoBuf`; the load part at `demoBuf` (little-endian: the flag
is clear after the load), at its byte-swapped counterpart (the flag is set after the load) and
at the big-endian header `major2BufBE` (major revision 2: `load` returns false with the flag
set). -/
theorem C20_read32_byte_order_witness :
    demoBuf[0]? = some 0xde ∧ demoBuf[0 + 1]? = some 0x12 ∧ demoBuf[0 + 2]? = some 0x04 ∧
      demoBuf[0 + 3]? = some 0x95 ∧
      read32 false demoBuf 0 = some 0x950412de ∧ read32 true demoBuf 0 = some 0xde120495 ∧
      bswap32 0x950412de = 0xde120495 ∧ bswap32 (bswap32 0x950412de) = 0x950412de ∧
      load MoReader.fresh demoBuf = some (true, demoReader) ∧
      (demoReader._needSwap = true ↔ demoBuf.take 4 = [0x95, 0x04, 0x12, 0xde]) ∧
      demoReader._needSwap = false ∧
      load MoReader.fresh (byteSwapped demoBuf)
        = some (true, ⟨true, demoReader._translations⟩) ∧
      ((MoReader.mk true demoReader._translations)._needSwap = true ↔
        (byteSwapped demoBuf).take 4 = [0x95, 0x04, 0x12, 0xde]) ∧
      (∃ r2, load MoReader.fresh major2BufBE = some (false, r2) ∧
        (r2._needSwap = true ↔ major2BufBE.take 4 = [0x95, 0x04, 0x12, 0xde])) :=
  have h := C20_read32_byte_order demoBuf 0 0xde 0x12 0x04 0x95 (by decide) (by decide)
    (by decide) (by decide)
  have hLE := h.2.2.2.2 MoReader.fresh demoBuf (by decide) (Or.inl (by decide))
  have hBE := h.2.2.2.2 MoReader.fresh (byteSwapped demoBuf) (by decide) (Or.inr (by decide))
  have hRev := h.2.2.2.2 MoReader.fresh major2BufBE (by decide) (Or.inr (by decide))
  ⟨by decide, by decide, by decide, by decide, h.1, h.2.1, h.2.2.1,
    h.2.2.2.1 0x950412de (by decide),
    by decide, hLE.2.1 true demoReader (by decide), by decide,
    by decide, hBE.2.1 true ⟨true, demoReader._translations⟩ (by decide),
    hRev.2.2.1 ⟨0x20001, by decide, by decide⟩⟩

/-- C12: for every two buffers that differ only in the low 16 bits (minor version) of the
revision field, where no descriptor table or referenced string overlaps the revision field,
`load` does the same on both from every reader state: the same returned flag and the same
reader afterwards (in particular the same mapping when it succeeds), and it reads outside one
buffer exactly when it reads outside the other. -/
theorem C12_minor_version_ignored (r : MoReader) (d1 d2 : Bytes)
    (hs : sameUpToMinor d1 d2 = true) (hc : revisionClear d1 = true) :
    load r d1 = load r d2 :=
  load_minor r d1 d2 hs hc

/-- C12, at `demoBuf` (minor version 0) and `demoMinorBuf` (minor version `0x0107`). -/
theorem C12_minor_version_ignored_witness :
    sameUpToMinor demoBuf demoMinorBuf = true ∧ revisionClear demoBuf = true ∧
      word32 demoBuf 4 = some 0 ∧ word32 demoMinorBuf 4 = some 0x0107 ∧
      load MoReader.fresh demoBuf = load MoReader.fresh demoMinorBuf ∧
      load MoReader.fresh demoMinorBuf = some (true, demoReader) :=
  ⟨by decide, by decide, by decide, by decide,
    C12_minor_version_ignored MoReader.fresh demoBuf demoMinorBuf (by decide) (by decide),
    by decide⟩

/-- C16 (failing input): on the catalog `wrapBufOf (2 ^ 32)` (`N = 2 ^ 29 + 1`) descriptor
`2 ^ 29` has the non-empty original string `DE`, so the number of distinct non-empty original
strings among the N descriptors is 1. Iteration `i = 2 ^ 29` of `load` computes `i * 8` in
32 bits and reads descriptor 0 again: `load` returns true and `size()` is 0. -/
theorem C16_wrapped_index_undercounts :
    load MoReader.fresh (wrapBufOf (2 ^ 32)) = some (true, ⟨false, []⟩) ∧
      numStrings (wrapBufOf (2 ^ 32)) = some (2 ^ 29 + 1) ∧
      MoReader.size ⟨false, []⟩ = 0 ∧
      distinctOriginals (wrapBufOf (2 ^ 32)) (2 ^ 29 + 1) = 1 ∧
      MoReader.size ⟨false, []⟩ ≠ distinctOriginals (wrapBufOf (2 ^ 32)) (2 ^ 29 + 1) := by
  have hd : distinctOriginals (wrapBufOf (2 ^ 32)) (2 ^ 29 + 1) = 1 :=
    wrapBufOf_distinctOriginals _ _ (by norm_num)
  refine ⟨wrapBufOf_load _ rfl _, (wrapBufOf_header _).2.1, rfl, hd, ?_⟩
  rw [hd]
  decide

/-- C15 (round trip): for every finite list of (key, translation) pairs with pairwise distinct
non-empty keys (a key being msgid or `context ++ [0x04] ++ msgid`) whose reference `.mo` layout
`encodeMo` (28-byte header, original and translation descriptor tables, NUL-terminated strings)
has a total size below `2 ^ 32`: `load` on the encoded buffer returns true, `size()` equals the
number of pairs, and for every pair `getTranslation(msgid)`, respectively
`getTranslation(msgid, context)`, returns exactly its translation. -/
theorem C15_round_trip (r0 : MoReader) (pairs : List (Bytes × Bytes))
    (hne : ∀ p, p ∈ pairs → p.1 ≠ []) (hnd : (pairs.map Prod.fst).Nodup)
    (hsize : (encodeMo pairs).length < 2 ^ 32) :
    ∃ r, load r0 (encodeMo pairs) = some (true, r) ∧ r.size = pairs.length ∧
      (∀ msgid v, (msgid, v) ∈ pairs → getTranslation r msgid = v) ∧
      (∀ msgid context v, (context ++ [0x04] ++ msgid, v) ∈ pairs →
        getTranslationCtx r msgid context = v) := by
  refine ⟨⟨false, pairs⟩, load_encodeMo r0 pairs hne hnd hsize, rfl, ?_, ?_⟩
  · intro msgid v hv
    unfold getTranslation
    rw [mapFind_of_mem _ _ _ hnd hv]
  · intro msgid context v hv
    unfold getTranslationCtx
    rw [mapFind_of_mem _ _ _ hnd hv]

/-- C15, at the two pairs `hello` → `salut` and `menu\x04hello` → `bonjour`. -/
theorem C15_round_trip_witness :
    (∀ p, p ∈ demoPairs → p.1 ≠ []) ∧ (demoPairs.map Prod.fst).Nodup ∧
      (encodeMo demoPairs).length < 2 ^ 32 ∧
      ∃ r, load MoReader.fresh (encodeMo demoPairs) = some (true, r) ∧
        r.size = demoPairs.length ∧
        (∀ msgid v, (msgid, v) ∈ demoPairs → getTranslation r msgid = v) ∧
        (∀ msgid context v, (context ++ [0x04] ++ msgid, v) ∈ demoPairs →
          getTranslationCtx r msgid context = v) :=
  ⟨by decide, by decide, by decide,
    C15_round_trip MoReader.fresh demoPairs (by decide) (by decide) (by decide)⟩

end MoReaderClaims
